import Mathlib

/-!
Verification of the prime-encoded knowledge/reasoning engine
(`baz_prime_llm.py`).

The Python module is embedded shallowly:

* `PrimeGenerator.get i` (an incremental sieve handing out the i-th prime,
  declared an external collaborator by the design document) is modelled by
  `nthPrime i`, a computable enumeration of the primes in increasing order.
* `PrimeEncoder` / `KnowledgeBase` instance state (the concept↔prime
  dictionaries, the stored facts/encodings and rules) is a record `St`
  threaded explicitly through every operation, mirroring the Python
  methods' in-place mutation of `self`.
* Python `dict[int, int]` exponent maps become association lists
  (`EncMap`) with Python-dict semantics: update-in-place keeps the entry's
  position, a new key is appended, and iteration follows insertion order.
* `str.lower()` is modelled by `strLower` (per-character ASCII lowering,
  the fragment exercised by the engine); exceptions (`ValueError`,
  `KeyError`) become `Option`/`DOut.exn` values.
* `p ** exp` inside `decode_integer` is modelled as `p ^ exp.toNat`:
  a negative exponent would make the Python code produce a float, which is
  outside the integer codec's domain and is never produced by `encode`.
* The recursive `_deduce` search is defined with an explicit fuel
  parameter (`none` = fuel exhausted); `deduceFuel` is proved sufficient,
  so the fuelled function is total on every actual input, exactly as the
  Python recursion is argued to terminate.
-/

/-! ### The prime supply -/

/-- Linear search for the first prime at or after `c`, with explicit fuel. -/
def primeSearch : Nat → Nat → Nat
  | 0, c => c
  | fuel+1, c => if Nat.Prime c then c else primeSearch fuel (c+1)

/-- The least prime strictly greater than `k` (fuel justified by Bertrand). -/
def nextPrime (k : Nat) : Nat := primeSearch (2 * k + 2) (k + 1)

/-- The i-th prime (0-based): the contract of `PrimeGenerator.get`. -/
def nthPrime : Nat → Nat
  | 0 => 2
  | i+1 => nextPrime (nthPrime i)

/-! ### Exponent maps (Python `Dict[int, int]` with dict semantics) -/

/-- An exponent map: association list in insertion order. -/
abbrev EncMap := List (Nat × Int)

/-- `m.get(k, 0)`: first entry wins (a real dict has unique keys). -/
def dget : EncMap → Nat → Int
  | [], _ => 0
  | (k', v) :: rest, k => if k' = k then v else dget rest k

/-- `m[k] = v`: overwrite in place, else append (Python dict update). -/
def dset : EncMap → Nat → Int → EncMap
  | [], k, v => [(k, v)]
  | (k', v') :: rest, k, v =>
    if k' = k then (k', v) :: rest else (k', v') :: dset rest k v

/-- `del m[k]`: drop the entry with key `k`. -/
def ddel : EncMap → Nat → EncMap
  | [], _ => []
  | (k', v') :: rest, k => if k' = k then rest else (k', v') :: ddel rest k

/-- The key list of a map, in insertion order. -/
def dkeys (m : EncMap) : List Nat := m.map Prod.fst

/-- Python `==` on dicts: same key set, same value at every key. -/
def dictBeq (a b : EncMap) : Bool :=
  (dkeys a).all (fun k => decide (k ∈ dkeys b) && decide (dget a k = dget b k))
    && (dkeys b).all (fun k => decide (k ∈ dkeys a))

/-! ### ASCII lower-casing (model of Python `str.lower`) -/

/-- Model of Python `str.lower()` on the ASCII fragment the engine uses. -/
def strLower (s : String) : String := ⟨s.data.map Char.toLower⟩

/-! ### Facts, rules and the shared mutable state -/

namespace BazPrime

/-- A subject–predicate–object triple (`Fact` dataclass). -/
structure Fact where
  subject : String
  predicate : String
  object : String
deriving DecidableEq, Repr

/-- `str(fact)`: `f"{subject} {predicate} {object}"`. -/
def mkKey (s p o : String) : String := s ++ " " ++ p ++ " " ++ o

/-- String form of a fact, used as visited-set key and in explanations. -/
def factKey (f : Fact) : String := mkKey f.subject f.predicate f.object

/-- The `Rule` dataclass (pre-encoding form). -/
structure Rule where
  conditions : List Fact
  conclusion : Fact
  type : String := "standard"
  category : Option String := none
  property : Option String := none
  capability : Option String := none
deriving DecidableEq, Repr

/-- `Rule.create_universal_rule`. -/
def Rule.createUniversalRule (category prop : String) : Rule :=
  { conditions := [⟨"_x_", "is", category⟩],
    conclusion := ⟨"_x_", "is", prop⟩,
    type := "universal",
    category := some category,
    property := some prop }

/-- `Rule.create_capability_rule`. -/
def Rule.createCapabilityRule (category capability : String) : Rule :=
  { conditions := [⟨"_x_", "is", category⟩],
    conclusion := ⟨"_x_", "can", capability⟩,
    type := "capability",
    category := some category,
    capability := some capability }

/-- The encoded rule records stored in `KnowledgeBase.rules`
(the `type`-tagged dicts built by `add_rule`). -/
inductive ERule where
  | universalR (categoryPrime propertyPrime predicatePrime : Nat)
      (conditionEncoding conclusionEncoding : EncMap)
  | capabilityR (categoryPrime propertyPrime predicatePrime : Nat)
      (conditionEncoding conclusionEncoding : EncMap)
  | standardR (conditionEncodings : List EncMap) (conclusionEncoding : EncMap)
deriving DecidableEq, Repr

/-- The shared mutable state: the `PrimeEncoder` dictionaries together with
the `KnowledgeBase` lists (the knowledge base aliases the encoder, so a
single record models both objects). -/
structure St where
  c2p : List (String × Nat)
  p2c : List (Nat × String)
  nextIndex : Nat
  signPrime : Nat
  facts : List Fact
  factEncodings : List EncMap
  rules : List ERule
deriving DecidableEq, Repr

/-- First-match association-list lookup (Python dict read). -/
def alookup {α β : Type} [DecidableEq α] : List (α × β) → α → Option β
  | [], _ => none
  | (k', v) :: rest, k => if k' = k then some v else alookup rest k

/-- Python dict write: overwrite in place, else append. -/
def alset {α β : Type} [DecidableEq α] : List (α × β) → α → β → List (α × β)
  | [], k, v => [(k, v)]
  | (k', v') :: rest, k, v =>
    if k' = k then (k', v) :: rest else (k', v') :: alset rest k v

/-- `PrimeEncoder._assign_prime`. -/
def assignPrime (st : St) (concept : String) : Nat × St :=
  let p := nthPrime st.nextIndex
  (p, { st with
          c2p := alset st.c2p concept p,
          p2c := alset st.p2c p concept,
          nextIndex := st.nextIndex + 1 })

/-- `PrimeEncoder.get_prime`: case-fold, reuse or assign a fresh prime. -/
def getPrime (st : St) (concept : String) : Nat × St :=
  let key := strLower concept
  match alookup st.c2p key with
  | some p => (p, st)
  | none => assignPrime st key

/-- `PrimeEncoder.__init__` followed by `KnowledgeBase.__init__`:
reserve the sign prime for `'_sign'` before any user concept. -/
def initSt : St :=
  let st0 : St :=
    { c2p := [], p2c := [], nextIndex := 0, signPrime := 0,
      facts := [], factEncodings := [], rules := [] }
  let (p, st1) := assignPrime st0 "_sign"
  { st1 with signPrime := p }

/-! ### The integer codec -/

/-- Inner `while remaining % p == 0` loop of `encode_integer`; the fuel is
instantiated with `remaining` itself, which the loop can never exhaust
because each iteration at least halves `remaining`. -/
def divOut (p : Nat) : Nat → EncMap → Nat → EncMap × Nat
  | 0, enc, m => (enc, m)
  | fuel+1, enc, m =>
    if m % p = 0 then divOut p fuel (dset enc p (dget enc p + 1)) (m / p)
    else (enc, m)

/-- The `for i in range(self._next_index)` trial-division loop of
`encode_integer`, with its early `break` when `p * p > remaining`. -/
def trialLoop : Nat → Nat → EncMap → Nat → EncMap × Nat
  | _, 0, enc, m => (enc, m)
  | i, count+1, enc, m =>
    let p := nthPrime i
    if p * p > m then (enc, m)
    else
      let r := divOut p m enc m
      trialLoop (i+1) count r.1 r.2

/-- `PrimeEncoder.encode_integer`; `none` models the `ValueError` raised
on zero. -/
def encodeInteger (st : St) (n : Int) : Option EncMap :=
  if n = 0 then none
  else
    let start : EncMap := if n < 0 then [(st.signPrime, 1)] else []
    let r := trialLoop 0 st.nextIndex start n.natAbs
    some (if 1 < r.2 then dset r.1 r.2 (dget r.1 r.2 + 1) else r.1)

/-- `PrimeEncoder.decode_integer`.  A negative exponent would make the
Python code fall out of the integers (float `p ** exp`); it never arises
from `encode_integer`, and `toNat` marks that boundary. -/
def decodeInteger (st : St) (enc : EncMap) : Int :=
  let sr := enc.foldl
    (fun (acc : Int × Int) pe =>
      if pe.1 = st.signPrime then
        (acc.1 * (if pe.2.emod 2 = 1 then -1 else 1), acc.2)
      else (acc.1, acc.2 * (pe.1 : Int) ^ pe.2.toNat))
    (1, 1)
  sr.1 * sr.2

/-- `PrimeEncoder.multiply`: exponent-wise sum, then drop zero entries. -/
def multiplyMap (a b : EncMap) : EncMap :=
  let r := a.foldl (fun r pe => dset r pe.1 (dget r pe.1 + pe.2)) []
  let r := b.foldl (fun r pe => dset r pe.1 (dget r pe.1 + pe.2)) r
  r.filter (fun pe => pe.2 ≠ 0)

/-- Loop body of `PrimeEncoder.divide` over `b.items()`; `none` models the
`ValueError` raised when a non-sign exponent would go negative. -/
def divideLoop (sp : Nat) : EncMap → EncMap → Option EncMap
  | r, [] => some r
  | r, (p, e) :: rest =>
    if p = sp then divideLoop sp (dset r sp (dget r sp - e)) rest
    else
      let hv := dget r p
      if hv < e then none
      else
        let r1 := dset r p (hv - e)
        let r2 := if hv - e = 0 then ddel r1 p else r1
        divideLoop sp r2 rest

/-- `PrimeEncoder.divide`. -/
def divideMap (sp : Nat) (a b : EncMap) : Option EncMap := divideLoop sp a b

/-- `PrimeEncoder.add`: decode, add in ℤ, re-encode. -/
def addMap (st : St) (a b : EncMap) : Option EncMap :=
  encodeInteger st (decodeInteger st a + decodeInteger st b)

/-- `PrimeEncoder.subtract`: decode, subtract in ℤ, re-encode. -/
def subtractMap (st : St) (a b : EncMap) : Option EncMap :=
  encodeInteger st (decodeInteger st a - decodeInteger st b)

/-! ### Concept and fact encoding -/

/-- `PrimeEncoder.encode_symbol`: one prime factor with exponent 1. -/
def encodeSymbol (st : St) (symbol : String) : EncMap × St :=
  let r := getPrime st symbol
  ([(r.1, 1)], r.2)

/-- `KnowledgeBase.encode_fact`: product of the subject, predicate and
object encodings, in that order. -/
def encodeFact (st : St) (f : Fact) : EncMap × St :=
  let s := encodeSymbol st f.subject
  let p := encodeSymbol s.2 f.predicate
  let o := encodeSymbol p.2 f.object
  (multiplyMap (multiplyMap s.1 p.1) o.1, o.2)

/-- `KnowledgeBase.add_fact`: encode, append encoding and original fact. -/
def addFact (st : St) (f : Fact) : EncMap × St :=
  let r := encodeFact st f
  (r.1, { r.2 with
            factEncodings := r.2.factEncodings ++ [r.1],
            facts := r.2.facts ++ [f] })

/-- Encode a list of condition facts in order (the list comprehension in
`add_rule`'s standard branch). -/
def encodeFactList (st : St) : List Fact → List EncMap × St
  | [] => ([], st)
  | f :: rest =>
    let r := encodeFact st f
    let rs := encodeFactList r.2 rest
    (r.1 :: rs.1, rs.2)

/-- `KnowledgeBase.add_rule`.  `none` models the exceptions the Python
code raises on malformed rules (no condition to index, or a `None`
category/property/capability handed to `get_prime`). -/
def addRule (st : St) (r : Rule) : Option (ERule × St) :=
  if r.type = "universal" ∨ r.type = "capability" then do
    let c0 ← r.conditions.head?
    let cat ← r.category
    let propOrCap ← if r.type = "universal" then r.property else r.capability
    let condR := encodeFact st c0
    let conclR := encodeFact condR.2 r.conclusion
    let catR := getPrime conclR.2 cat
    let propR := getPrime catR.2 propOrCap
    let predR := getPrime propR.2 (if r.type = "universal" then "is" else "can")
    let er :=
      if r.type = "universal" then
        ERule.universalR catR.1 propR.1 predR.1 condR.1 conclR.1
      else
        ERule.capabilityR catR.1 propR.1 predR.1 condR.1 conclR.1
    some (er, { predR.2 with rules := predR.2.rules ++ [er] })
  else
    let condsR := encodeFactList st r.conditions
    let conclR := encodeFact condsR.2 r.conclusion
    let er := ERule.standardR condsR.1 conclR.1
    some (er, { conclR.2 with rules := conclR.2.rules ++ [er] })

/-! ### The reasoning engine -/

/-- The result dict of `_deduce`: `result`, `explanation` and the
optional `equation` key. -/
structure DResult where
  result : Bool
  explanation : String
  equation : Option String := none
deriving DecidableEq, Repr

/-- Outcome of a deduction step: a result record, or an uncaught Python
exception (`KeyError` on an unregistered category prime). -/
inductive DOut where
  | ok (r : DResult)
  | exn
deriving DecidableEq, Repr

/-- Reverse concept lookup `_prime_to_concept.get(p)`. -/
def primeToConcept (st : St) (p : Nat) : Option String := alookup st.p2c p

/-- Category prime of a universal or capability rule record. -/
def eruleKind : ERule → Option (Nat × Nat × Bool)
  | ERule.universalR c p _ _ _ => some (c, p, true)
  | ERule.capabilityR c p _ _ _ => some (c, p, false)
  | ERule.standardR _ _ => none

/-- Loop body of `_universal_chain` over `kb.rules`; `rec` is the
recursive call at the next chain element. -/
def univChainLoop
    (rec : St → String → List String → Option (List String) × St × List String)
    (subjPrime : Nat) (subj : String) :
    St → List String → List ERule → Option (List String) × St × List String
  | st, vis, [] => (none, st, vis)
  | st, vis, r :: rest =>
    match r with
    | ERule.universalR catP propP _ _ _ =>
      if catP = subjPrime then
        match primeToConcept st propP with
        | none => univChainLoop rec subjPrime subj st vis rest
        | some propName =>
          if propName = "" then univChainLoop rec subjPrime subj st vis rest
          else
            match rec st propName vis with
            | (some chain, st', vis') => (some (subj :: chain), st', vis')
            | (none, st', vis') => univChainLoop rec subjPrime subj st' vis' rest
      else univChainLoop rec subjPrime subj st vis rest
    | _ => univChainLoop rec subjPrime subj st vis rest

/-- `ReasoningEngine._universal_chain`: DFS along universal-rule edges with
a shared visited set of category names.  The fuel only backstops the
recursion; `chainFuel` below is proved sufficient, so the fuel-0 default
is never reached. -/
def universalChain : Nat → St → String → String → List String →
    Option (List String) × St × List String
  | 0, st, _, _, vis => (none, st, vis)
  | fuel+1, st, subj, target, vis =>
    if subj = target then (some [subj], st, vis)
    else if subj ∈ vis then (none, st, vis)
    else
      let vis1 := subj :: vis
      let r := getPrime st subj
      univChainLoop (fun s2 pn v2 => universalChain fuel s2 pn target v2)
        r.1 subj r.2 vis1 r.2.rules

/-- Fuel that always suffices for `_universal_chain`: the visited set grows
inside a name universe of at most `2 * |p2c| + 2` strings. -/
def chainFuel (st : St) : Nat := 2 * st.p2c.length + 2 + 1

/-- `ReasoningEngine._decode_fact`, step 1: flatten an encoding into its
multiset of non-sign primes (insertion order, exponent-many copies). -/
def decodeFactPrimes (sp : Nat) (enc : EncMap) : List Nat :=
  enc.foldl
    (fun acc pe =>
      if pe.1 = sp then acc else acc ++ List.replicate pe.2.toNat pe.1) []

/-- `ReasoningEngine._decode_fact`: an encoding of exactly three concept
primes becomes a fact; Python truthiness makes `None` and `""` both fail
the final check. -/
def decodeFact (st : St) (enc : EncMap) : Option Fact :=
  match decodeFactPrimes st.signPrime enc with
  | [s, pred, o] =>
    match alookup st.p2c s, alookup st.p2c pred, alookup st.p2c o with
    | some sub, some prd, some obj =>
      if sub ≠ "" ∧ prd ≠ "" ∧ obj ≠ "" then some ⟨sub, prd, obj⟩ else none
    | _, _, _ => none
  | _ => none

/-- Hop texts `"{chain[i]} are {chain[i+1]}"` of the chain explanation. -/
def hopPairs : List String → List String
  | a :: b :: rest => (a ++ " are " ++ b) :: hopPairs (b :: rest)
  | _ => []

/-- The chain explanation: hops joined with `", and "`. -/
def hopsExpl (chain : List String) : String :=
  String.intercalate ", and " (hopPairs chain)

/-- Direct-fact scan over `zip(kb.fact_encodings, kb.facts)` using Python
dict equality on the encodings. -/
def findDirect (qEnc : EncMap) : List (EncMap × Fact) → Option Fact
  | [] => none
  | (fe, f) :: rest => if dictBeq fe qEnc then some f else findDirect qEnc rest

/-- Universal/capability rule loop of `_deduce` (the first rule loop).
`rec` is the recursive `_deduce` call; the outer `none` means the fuel of a
recursive call ran out, `some (none, …)` means the loop fell through. -/
def tryUnivCap (rec : St → Fact → List String → Option (DOut × St × List String))
    (q : Fact) :
    St → List String → List ERule → Option (Option DOut × St × List String)
  | st, vis, [] => some (none, st, vis)
  | st, vis, r :: rest =>
    match eruleKind r with
    | none => tryUnivCap rec q st vis rest
    | some (catP, propP, isUniv) =>
      if q.predicate = (if isUniv then "is" else "can") then
        let objR := getPrime st q.object
        if objR.1 = propP then
          match primeToConcept objR.2 catP with
          | none => some (some DOut.exn, objR.2, vis)
          | some catName =>
            let membership : Fact := ⟨q.subject, "is", catName⟩
            match rec objR.2 membership vis with
            | none => none
            | some (DOut.exn, st2, vis2) => some (some DOut.exn, st2, vis2)
            | some (DOut.ok sub, st2, vis2) =>
              if sub.result then
                match primeToConcept st2 catP with
                | none => some (some DOut.exn, st2, vis2)
                | some catName2 =>
                  let clause := if isUniv then "are" else "can"
                  let fresh : String :=
                    if isUniv then
                      q.subject ++ " ∈ " ++ membership.object ++ " ⊆ " ++ q.object
                    else
                      "∀x∈" ++ membership.object ++ ": x can " ++ q.object
                  let eqForm : String :=
                    match sub.equation with
                    | some e => if e ≠ "" then e ++ " ⊆ " ++ q.object else fresh
                    | none => fresh
                  let expl := sub.explanation ++ ", and all " ++ catName2
                                ++ " " ++ clause ++ " " ++ q.object
                  some (some (DOut.ok ⟨true, expl, some eqForm⟩), st2, vis2)
              else tryUnivCap rec q st2 vis2 rest
        else tryUnivCap rec q objR.2 vis rest
      else tryUnivCap rec q st vis rest

/-- Outcome of the condition loop inside the standard-rule branch. -/
inductive COut where
  | exn
  | failed
  | okL (expls : List String)
deriving DecidableEq, Repr

/-- Condition loop of the standard-rule branch of `_deduce`. -/
def tryConds (rec : St → Fact → List String → Option (DOut × St × List String)) :
    St → List String → List String → List EncMap →
    Option (COut × St × List String)
  | st, vis, acc, [] => some (COut.okL acc, st, vis)
  | st, vis, acc, ce :: rest =>
    match decodeFact st ce with
    | none => some (COut.failed, st, vis)
    | some cf =>
      match rec st cf vis with
      | none => none
      | some (DOut.exn, st2, vis2) => some (COut.exn, st2, vis2)
      | some (DOut.ok sub, st2, vis2) =>
        if sub.result then tryConds rec st2 vis2 (acc ++ [sub.explanation]) rest
        else some (COut.failed, st2, vis2)

/-- Standard-rule loop of `_deduce` (the second rule loop). -/
def tryStd (rec : St → Fact → List String → Option (DOut × St × List String))
    (q : Fact) (qEnc : EncMap) :
    St → List String → List ERule → Option (Option DOut × St × List String)
  | st, vis, [] => some (none, st, vis)
  | st, vis, r :: rest =>
    match r with
    | ERule.standardR condEncs conclEnc =>
      if dictBeq conclEnc qEnc then
        match tryConds rec st vis [] condEncs with
        | none => none
        | some (COut.exn, st2, vis2) => some (some DOut.exn, st2, vis2)
        | some (COut.failed, st2, vis2) => tryStd rec q qEnc st2 vis2 rest
        | some (COut.okL expls, st2, vis2) =>
          some (some (DOut.ok ⟨true,
            String.intercalate ", " expls ++ ", which implies " ++ factKey q,
            none⟩), st2, vis2)
      else tryStd rec q qEnc st vis rest
    | _ => tryStd rec q qEnc st vis rest

/-- Transitive fallback loop of `_deduce` for `"is"`/`"part of"`. -/
def tryTrans (rec : St → Fact → List String → Option (DOut × St × List String))
    (q : Fact) :
    St → List String → List (EncMap × Fact) →
    Option (Option DOut × St × List String)
  | st, vis, [] => some (none, st, vis)
  | st, vis, (_, f) :: rest =>
    if f.subject = q.subject ∧ f.predicate = q.predicate then
      let inter : Fact := ⟨f.object, q.predicate, q.object⟩
      match rec st inter vis with
      | none => none
      | some (DOut.exn, st2, vis2) => some (some DOut.exn, st2, vis2)
      | some (DOut.ok sub, st2, vis2) =>
        if sub.result then
          some (some (DOut.ok ⟨true,
            q.subject ++ " " ++ q.predicate ++ " " ++ f.object ++ ", and "
              ++ sub.explanation, none⟩), st2, vis2)
        else tryTrans rec q st2 vis2 rest
    else tryTrans rec q st vis rest

/-- Lines 386–450 of `_deduce` (everything after the transitive-chain
shortcut): encode the query, scan direct facts, try universal/capability
rules, standard rules, the transitive fallback, and finally give up.
`rec` is the recursive `_deduce` call. -/
def deducePost
    (rec : St → Fact → List String → Option (DOut × St × List String))
    (q : Fact) (st1 : St) (vis1 : List String) :
    Option (DOut × St × List String) :=
  let qR := encodeFact st1 q
  match findDirect qR.1 (qR.2.factEncodings.zip qR.2.facts) with
  | some f =>
    some (DOut.ok ⟨true, "Direct fact in knowledge base: " ++ factKey f,
      none⟩, qR.2, vis1)
  | none =>
    match tryUnivCap rec q qR.2 vis1 qR.2.rules with
    | none => none
    | some (some out, st3, vis3) => some (out, st3, vis3)
    | some (none, st3, vis3) =>
      match tryStd rec q qR.1 st3 vis3 st3.rules with
      | none => none
      | some (some out, st4, vis4) => some (out, st4, vis4)
      | some (none, st4, vis4) =>
        if q.predicate = "is" ∨ q.predicate = "part of" then
          match tryTrans rec q st4 vis4 (st4.factEncodings.zip st4.facts) with
          | none => none
          | some (some out, st5, vis5) => some (out, st5, vis5)
          | some (none, st5, vis5) =>
            some (DOut.ok ⟨false, "Could not deduce: " ++ factKey q, none⟩,
              st5, vis5)
        else
          some (DOut.ok ⟨false, "Could not deduce: " ++ factKey q, none⟩,
            st4, vis4)

/-- `ReasoningEngine._deduce`, with fuel (`none` = fuel exhausted).  The
threaded visited list models the shared mutable `self._visited` set; the
unused Python `depth` counter (never compared to a limit) is omitted. -/
def deduceAux : Nat → St → Fact → List String → Option (DOut × St × List String)
  | 0, _, _, _ => none
  | fuel+1, st, q, vis =>
    let key := factKey q
    if key ∈ vis then
      some (DOut.ok ⟨false, "Circular reasoning detected: " ++ key, none⟩,
        st, vis)
    else
      let vis1 := key :: vis
      if q.predicate = "is" ∧ q.subject = q.object then
        some (DOut.ok ⟨true, q.subject ++ " is itself by definition", none⟩,
          st, vis1)
      else
        let chainR :=
          if q.predicate = "is" then
            let c := universalChain (chainFuel st) st q.subject q.object []
            (c.1, c.2.1)
          else (none, st)
        match chainR.1 with
        | some chain =>
          some (DOut.ok ⟨true, hopsExpl chain,
            some (String.intercalate " ⊆ " chain)⟩, chainR.2, vis1)
        | none => deducePost (deduceAux fuel) q chainR.2 vis1

/-- The string universe the search can mention: the query components,
`"is"`, the stored facts' objects, the registered concept names, and their
lower-casings. -/
def baseUnion (st : St) (q : Fact) : List String :=
  let X := "is" :: q.subject :: q.predicate :: q.object ::
    (st.facts.map Fact.object ++ st.p2c.map Prod.snd)
  X ++ X.map strLower

/-- All candidate visited-set keys over a string universe. -/
def keysOf (U : List String) : List String :=
  U.flatMap (fun s => U.flatMap (fun p => U.map (fun o => mkKey s p o)))

/-- Number of candidate keys not yet visited: the termination measure of
the deduction search. -/
def measureK (U : List String) (vis : List String) : Nat :=
  ((keysOf U).dedup.filter (fun k => decide (k ∉ vis))).length

/-- Fuel that always suffices for `_deduce` (proved below): one more than
the number of candidate visited keys. -/
def deduceFuel (st : St) (q : Fact) : Nat := (baseUnion st q).length ^ 3 + 1

/-- `ReasoningEngine.deduce`: reset the visited set, run `_deduce`. -/
def deduce (st : St) (q : Fact) : Option (DOut × St × List String) :=
  deduceAux (deduceFuel st q) st q []

/-- Well-formedness of a store: every universal/capability rule's category
prime is a registered concept (guaranteed by `add_rule`, which interns the
category; `_deduce` indexes `_prime_to_concept` with it unguarded). -/
def WFst (st : St) : Prop :=
  ∀ r ∈ st.rules, ∀ cp : Nat × Nat × Bool, eruleKind r = some cp →
    (alookup st.p2c cp.1).isSome

/-! ### Invariants used by the termination and frame proofs -/

/-- The registered concept names (values of `_prime_to_concept`). -/
def p2cVals (st : St) : List String := st.p2c.map Prod.snd

/-- A string universe closed under lower-casing. -/
def lowerClosed (U : List String) : Prop := ∀ s ∈ U, strLower s ∈ U

/-- The knowledge-base lists are untouched (the frame the reasoner must
preserve). -/
def Frame (st st' : St) : Prop :=
  st'.facts = st.facts ∧ st'.factEncodings = st.factEncodings ∧
    st'.rules = st.rules

/-- Both concept dictionaries only gain resolvable keys. -/
def LkMono (st st' : St) : Prop :=
  (∀ s, (alookup st.c2p s).isSome → (alookup st'.c2p s).isSome) ∧
    (∀ p, (alookup st.p2c p).isSome → (alookup st'.p2c p).isSome)

/-- State evolution permitted during a deduction. -/
def Progress (st st' : St) : Prop := Frame st st' ∧ LkMono st st'

/-- Store-level invariant over a universe `U`. -/
def StInv (U : List String) (st : St) : Prop :=
  (∀ f ∈ st.facts, f.object ∈ U) ∧ (∀ v ∈ p2cVals st, v ∈ U) ∧ WFst st

/-- Query-level invariant over a universe `U`. -/
def QInv (U : List String) (q : Fact) : Prop :=
  q.subject ∈ U ∧ q.predicate ∈ U ∧ q.object ∈ U

/-- Frame/monotonicity contract satisfied by every recursive level of
`_deduce`: state evolves by `Progress`, the visited set only grows. -/
def RecPres (rec : St → Fact → List String →
    Option (DOut × St × List String)) : Prop :=
  ∀ st q vis out st' vis', rec st q vis = some (out, st', vis') →
    Progress st st' ∧ vis ⊆ vis'

/-- Totality/invariant contract for the termination proof: under the
store, query and measure invariants, a recursive level returns an
ordinary result (never fuel exhaustion, never an exception). -/
def RecTotal (U : List String) (n : Nat)
    (rec : St → Fact → List String → Option (DOut × St × List String)) : Prop :=
  ∀ st q vis, StInv U st → QInv U q → measureK U vis < n →
    ∃ r st' vis', rec st q vis = some (DOut.ok r, st', vis') ∧
      StInv U st' ∧ Progress st st' ∧ vis ⊆ vis'

/-! ### Concrete scenario stores used by the witnesses -/

/-- Unwrap an `addRule` result (all scenario rules are well-formed). -/
def getStD (r : Option (ERule × St)) (dflt : St) : St :=
  match r with
  | some (_, s) => s
  | none => dflt

/-- The spec's transitive-hierarchy scenario, with the queried fact also
stored directly. -/
def hilbSt : St :=
  let s1 := getStD (addRule initSt
    (Rule.createUniversalRule "Hilbert_spaces" "inner_product_spaces")) initSt
  let s2 := getStD (addRule s1
    (Rule.createUniversalRule "inner_product_spaces" "normed_spaces")) s1
  (addFact s2 ⟨"Hilbert_spaces", "is", "normed_spaces"⟩).2

/-- The spec's cycle scenario: universal rules A→B and B→A. -/
def cycSt : St :=
  let s1 := getStD (addRule initSt (Rule.createUniversalRule "A" "B")) initSt
  getStD (addRule s1 (Rule.createUniversalRule "B" "A")) s1

end BazPrime

/-! ## Theorems -/

theorem primeSearch_spec (fuel : Nat) : ∀ c : Nat,
    (∃ p, c ≤ p ∧ p < c + fuel ∧ Nat.Prime p) →
    Nat.Prime (primeSearch fuel c) ∧ c ≤ primeSearch fuel c ∧
      ∀ q, Nat.Prime q → c ≤ q → primeSearch fuel c ≤ q := by
  induction fuel with
  | zero =>
    intro c ⟨p, hcp, hlt, _⟩
    omega
  | succ fuel ih =>
    intro c ⟨p, hcp, hlt, hp⟩
    by_cases hc : Nat.Prime c
    · refine ⟨by simpa [primeSearch, hc], by simp [primeSearch, hc], ?_⟩
      intro q _ hq
      simpa [primeSearch, hc] using hq
    · have hpc : p ≠ c := fun h => hc (h ▸ hp)
      have hrec := ih (c+1) ⟨p, by omega, by omega, hp⟩
      refine ⟨by simpa [primeSearch, hc] using hrec.1,
              by have := hrec.2.1; simp [primeSearch, hc]; omega, ?_⟩
      intro q hq hcq
      have hqc : q ≠ c := fun h => hc (h ▸ hq)
      have := hrec.2.2 q hq (by omega)
      simpa [primeSearch, hc] using this

theorem nextPrime_spec (k : Nat) (hk : 1 ≤ k) :
    Nat.Prime (nextPrime k) ∧ k < nextPrime k ∧
      ∀ q, Nat.Prime q → k < q → nextPrime k ≤ q := by
  obtain ⟨p, hp, hkp, hp2k⟩ := Nat.bertrand k (by omega)
  have h := primeSearch_spec (2 * k + 2) (k + 1) ⟨p, by omega, by omega, hp⟩
  unfold nextPrime
  exact ⟨h.1, by have := h.2.1; omega, fun q hq hkq => h.2.2 q hq (by omega)⟩

theorem nthPrime_prime (i : Nat) : Nat.Prime (nthPrime i) := by
  induction i with
  | zero => exact Nat.prime_two
  | succ i ih =>
    exact (nextPrime_spec (nthPrime i) (by have := ih.two_le; omega)).1

theorem nthPrime_two_le (i : Nat) : 2 ≤ nthPrime i := (nthPrime_prime i).two_le

theorem nthPrime_lt_succ (i : Nat) : nthPrime i < nthPrime (i+1) :=
  (nextPrime_spec (nthPrime i) (by have := nthPrime_two_le i; omega)).2.1

/-- No prime lies strictly between consecutive values of `nthPrime`:
the sieve enumerates primes without gaps. -/
theorem nthPrime_no_gap {q : Nat} (hq : Nat.Prime q) (i : Nat)
    (h : nthPrime i < q) : nthPrime (i+1) ≤ q :=
  (nextPrime_spec (nthPrime i) (by have := nthPrime_two_le i; omega)).2.2 q hq h

theorem mem_dset {k : Nat} {v : Int} {pe : Nat × Int} :
    ∀ {m : EncMap}, pe ∈ dset m k v → pe = (k, v) ∨ pe ∈ m := by
  intro m
  induction m with
  | nil =>
    intro h
    simp only [dset] at h
    left
    simpa using h
  | cons hd tl ih =>
    intro h
    rcases hd with ⟨k', v'⟩
    by_cases hk : k' = k
    · simp only [dset, if_pos hk] at h
      rcases List.mem_cons.mp h with h | h
      · left; rw [h, hk]
      · right; exact List.mem_cons_of_mem _ h
    · simp only [dset, if_neg hk] at h
      rcases List.mem_cons.mp h with h | h
      · right; rw [h]; exact List.mem_cons_self _ _
      · rcases ih h with h | h
        · left; exact h
        · right; exact List.mem_cons_of_mem _ h

theorem mem_ddel {k : Nat} {pe : Nat × Int} :
    ∀ {m : EncMap}, pe ∈ ddel m k → pe ∈ m := by
  intro m
  induction m with
  | nil =>
    intro h
    simpa [ddel] using h
  | cons hd tl ih =>
    intro h
    rcases hd with ⟨k', v'⟩
    by_cases hk : k' = k
    · simp only [ddel, if_pos hk] at h
      exact List.mem_cons_of_mem _ h
    · simp only [ddel, if_neg hk] at h
      rcases List.mem_cons.mp h with h | h
      · rw [h]; exact List.mem_cons_self _ _
      · exact List.mem_cons_of_mem _ (ih h)

theorem dget_dset_ne {k k' : Nat} {v : Int} (h : k' ≠ k) :
    ∀ m : EncMap, dget (dset m k v) k' = dget m k' := by
  intro m
  induction m with
  | nil =>
    simp only [dset, dget]
    rw [if_neg (fun hh : k = k' => h hh.symm)]
  | cons hd tl ih =>
    rcases hd with ⟨k0, v0⟩
    by_cases hk : k0 = k
    · subst hk
      simp only [dset, if_pos rfl, dget]
      rw [if_neg (fun hh : k0 = k' => h hh.symm),
          if_neg (fun hh : k0 = k' => h hh.symm)]
    · simp only [dset, if_neg hk, dget]
      by_cases hk' : k0 = k'
      · rw [if_pos hk', if_pos hk']
      · rw [if_neg hk', if_neg hk', ih]

theorem dget_dset_self {k : Nat} {v : Int} :
    ∀ m : EncMap, dget (dset m k v) k = v := by
  intro m
  induction m with
  | nil => simp [dset, dget]
  | cons hd tl ih =>
    rcases hd with ⟨k0, v0⟩
    by_cases hk : k0 = k
    · subst hk
      simp [dset, dget]
    · simp only [dset, if_neg hk, dget]
      exact ih

theorem dget_ddel_ne {k k' : Nat} (h : k' ≠ k) :
    ∀ m : EncMap, dget (ddel m k) k' = dget m k' := by
  intro m
  induction m with
  | nil => simp [ddel]
  | cons hd tl ih =>
    rcases hd with ⟨k0, v0⟩
    by_cases hk : k0 = k
    · subst hk
      have h1 : ddel ((k0, v0) :: tl) k0 = tl := by simp [ddel]
      rw [h1]
      simp only [dget]
      rw [if_neg (fun hh : k0 = k' => h hh.symm)]
    · simp only [ddel, if_neg hk, dget]
      by_cases hk' : k0 = k'
      · rw [if_pos hk', if_pos hk']
      · rw [if_neg hk', if_neg hk', ih]

theorem dget_mem_or_zero (m : EncMap) (k : Nat) :
    (k, dget m k) ∈ m ∨ dget m k = 0 := by
  induction m with
  | nil => simp [dget]
  | cons hd tl ih =>
    rcases hd with ⟨k0, v0⟩
    by_cases hk : k0 = k
    · subst hk
      simp [dget]
    · rcases ih with h | h
      · left; simp [dget, hk, h]
      · right; simpa [dget, hk] using h

theorem charOfNat_toNat (n : Nat) (h : n.isValidChar) :
    (Char.ofNat n).toNat = n := by
  simp [Char.ofNat, h, Char.toNat, Char.ofNatAux, UInt32.toNat]

theorem charToLower_idem (c : Char) :
    Char.toLower (Char.toLower c) = Char.toLower c := by
  unfold Char.toLower
  by_cases h : c.toNat ≥ 65 ∧ c.toNat ≤ 90
  · rw [if_pos h]
    have hv : (c.toNat + 32).isValidChar := by
      unfold Nat.isValidChar
      omega
    have ht : (Char.ofNat (c.toNat + 32)).toNat = c.toNat + 32 :=
      charOfNat_toNat _ hv
    rw [if_neg (by rw [ht]; omega)]
  · rw [if_neg h, if_neg h]

theorem strLower_idem (s : String) : strLower (strLower s) = strLower s := by
  unfold strLower
  simp only [List.map_map]
  exact congrArg String.mk (List.map_congr_left fun c _ => charToLower_idem c)

open BazPrime

/-! ### Supporting lemmas for the integer codec claims -/

theorem mem_ddel_dset {k : Nat} {v : Int} {pe : Nat × Int} :
    ∀ {m : EncMap}, pe ∈ ddel (dset m k v) k → pe ∈ m := by
  intro m
  induction m with
  | nil =>
    intro h
    simp [dset, ddel] at h
  | cons hd tl ih =>
    intro h
    rcases hd with ⟨k0, v0⟩
    by_cases hk : k0 = k
    · simp only [dset, if_pos hk, ddel, if_pos hk] at h
      exact List.mem_cons_of_mem _ h
    · simp only [dset, if_neg hk, ddel, if_neg hk] at h
      rcases List.mem_cons.mp h with h | h
      · rw [h]; exact List.mem_cons_self _ _
      · exact List.mem_cons_of_mem _ (ih h)

theorem dset_pos {enc : EncMap} {k : Nat} {v : Int}
    (he : ∀ pe ∈ enc, 0 < pe.2) (hv : 0 < v) :
    ∀ pe ∈ dset enc k v, 0 < pe.2 := by
  intro pe hpe
  rcases mem_dset hpe with h | h
  · rw [h]; exact hv
  · exact he pe h

theorem dget_pos_bump {enc : EncMap} {k : Nat}
    (he : ∀ pe ∈ enc, 0 < pe.2) : 0 < dget enc k + 1 := by
  rcases dget_mem_or_zero enc k with h | h
  · have := he _ h
    omega
  · omega

theorem divOut_pos_entries (p : Nat) :
    ∀ (fuel : Nat) (enc : EncMap) (m : Nat), (∀ pe ∈ enc, 0 < pe.2) →
      ∀ pe ∈ (divOut p fuel enc m).1, 0 < pe.2 := by
  intro fuel
  induction fuel with
  | zero => intro enc m he; simpa [divOut] using he
  | succ fuel ih =>
    intro enc m he
    by_cases hm : m % p = 0
    · simp only [divOut, if_pos hm]
      exact ih _ _ (dset_pos he (dget_pos_bump he))
    · simpa [divOut, hm] using he

theorem trialLoop_pos_entries :
    ∀ (count i : Nat) (enc : EncMap) (m : Nat), (∀ pe ∈ enc, 0 < pe.2) →
      ∀ pe ∈ (trialLoop i count enc m).1, 0 < pe.2 := by
  intro count
  induction count with
  | zero => intro i enc m he; simpa [trialLoop] using he
  | succ count ih =>
    intro i enc m he
    by_cases hb : nthPrime i * nthPrime i > m
    · simpa [trialLoop, hb] using he
    · simp only [trialLoop, if_neg hb]
      exact ih _ _ _ (divOut_pos_entries _ _ _ _ he)

theorem encodeInteger_pos_entries {st : St} {n : Int} {m : EncMap}
    (h : encodeInteger st n = some m) : ∀ pe ∈ m, 0 < pe.2 := by
  by_cases hn : n = 0
  · rw [hn] at h
    simp [encodeInteger] at h
  · simp only [encodeInteger, if_neg hn, Option.some.injEq] at h
    have hstart : ∀ pe ∈ (if n < 0 then [(st.signPrime, (1:Int))] else []),
        0 < pe.2 := by
      by_cases hneg : n < 0 <;> simp [hneg]
    have hloop := trialLoop_pos_entries st.nextIndex 0 _ n.natAbs hstart
    rw [← h]
    by_cases h2 : 1 < (trialLoop 0 st.nextIndex
        (if n < 0 then [(st.signPrime, (1:Int))] else []) n.natAbs).2
    · rw [if_pos h2]
      exact dset_pos hloop (dget_pos_bump hloop)
    · rw [if_neg h2]
      exact hloop

/-- `divide` loop invariant for non-sign entries. -/
theorem divideLoop_nonzero {sp : Nat} :
    ∀ (b r m : EncMap), (∀ pe ∈ r, pe.1 ≠ sp → pe.2 ≠ 0) →
      divideLoop sp r b = some m → ∀ pe ∈ m, pe.1 ≠ sp → pe.2 ≠ 0 := by
  intro b
  induction b with
  | nil =>
    intro r m hr h
    obtain rfl : r = m := by simpa [divideLoop] using h
    exact hr
  | cons hd rest ih =>
    intro r m hr h
    rcases hd with ⟨p, e⟩
    by_cases hp : p = sp
    · rw [divideLoop, if_pos hp] at h
      refine ih _ _ ?_ h
      intro pe hpe hne
      rcases mem_dset hpe with h' | h'
      · rw [h'] at hne
        exact absurd rfl hne
      · exact hr pe h' hne
    · rw [divideLoop, if_neg hp] at h
      by_cases hlt : dget r p < e
      · rw [if_pos hlt] at h
        exact absurd h (by simp)
      · rw [if_neg hlt] at h
        change divideLoop sp
          (if dget r p - e = 0 then ddel (dset r p (dget r p - e)) p
           else dset r p (dget r p - e)) rest = some m at h
        by_cases hz : dget r p - e = 0
        · rw [if_pos hz] at h
          refine ih _ _ ?_ h
          intro pe hpe hne
          exact hr pe (mem_ddel_dset hpe) hne
        · rw [if_neg hz] at h
          refine ih _ _ ?_ h
          intro pe hpe hne
          rcases mem_dset hpe with h' | h'
          · rw [h']; exact hz
          · exact hr pe h' hne

/-- `divide` errors exactly when some pending non-sign entry of `b` is
deeper than what `r` currently holds. -/
theorem divideLoop_none_iff {sp : Nat} {a : EncMap} :
    ∀ (b : List (Nat × Int)) (r : EncMap), (b.map Prod.fst).Nodup →
      (∀ pe ∈ b, dget r pe.1 = dget a pe.1) →
      (divideLoop sp r b = none ↔ ∃ pe ∈ b, pe.1 ≠ sp ∧ dget a pe.1 < pe.2) := by
  intro b
  induction b with
  | nil =>
    intro r _ _
    simp [divideLoop]
  | cons hd rest ih =>
    intro r hnd hr
    rcases hd with ⟨p, e⟩
    have hnd' : (p :: rest.map Prod.fst).Nodup := by simpa using hnd
    have hndr : (rest.map Prod.fst).Nodup := hnd'.of_cons
    have hpnotin : p ∉ rest.map Prod.fst := (List.nodup_cons.mp hnd').1
    have hne_rest : ∀ pe ∈ rest, pe.1 ≠ p := by
      intro pe hpe hcontra
      exact hpnotin (hcontra ▸ List.mem_map_of_mem Prod.fst hpe)
    by_cases hp : p = sp
    · rw [divideLoop, if_pos hp]
      have hr' : ∀ pe ∈ rest, dget (dset r sp (dget r sp - e)) pe.1 = dget a pe.1 := by
        intro pe hpe
        rw [dget_dset_ne (by rw [← hp]; exact hne_rest pe hpe), hr pe (List.mem_cons_of_mem _ hpe)]
      rw [ih _ hndr hr']
      constructor
      · rintro ⟨pe, hpe, hps, hlt⟩
        exact ⟨pe, List.mem_cons_of_mem _ hpe, hps, hlt⟩
      · rintro ⟨pe, hpe, hps, hlt⟩
        rcases List.mem_cons.mp hpe with h | h
        · exact absurd (by rw [h]; exact hp) hps
        · exact ⟨pe, h, hps, hlt⟩
    · rw [divideLoop, if_neg hp]
      have hget : dget r p = dget a p := hr (p, e) (List.mem_cons_self _ _)
      by_cases hlt : dget r p < e
      · rw [if_pos hlt]
        simp only [true_iff]
        exact ⟨(p, e), List.mem_cons_self _ _, hp, by rw [← hget]; exact hlt⟩
      · rw [if_neg hlt]
        have hr2 : ∀ pe ∈ rest,
            dget (if dget r p - e = 0 then ddel (dset r p (dget r p - e)) p
                  else dset r p (dget r p - e)) pe.1 = dget a pe.1 := by
          intro pe hpe
          have hnep := hne_rest pe hpe
          by_cases hz : dget r p - e = 0
          · rw [if_pos hz, dget_ddel_ne hnep, dget_dset_ne hnep,
              hr pe (List.mem_cons_of_mem _ hpe)]
          · rw [if_neg hz, dget_dset_ne hnep, hr pe (List.mem_cons_of_mem _ hpe)]
        show divideLoop sp
            (if dget r p - e = 0 then ddel (dset r p (dget r p - e)) p
             else dset r p (dget r p - e)) rest = none ↔
          ∃ pe ∈ (p, e) :: rest, pe.1 ≠ sp ∧ dget a pe.1 < pe.2
        by_cases hz : dget r p - e = 0
        · rw [if_pos hz]
          rw [if_pos hz] at hr2
          rw [ih _ hndr hr2]
          constructor
          · rintro ⟨pe, hpe, hps, hl⟩
            exact ⟨pe, List.mem_cons_of_mem _ hpe, hps, hl⟩
          · rintro ⟨pe, hpe, hps, hl⟩
            rcases List.mem_cons.mp hpe with h | h
            · rw [h] at hl
              rw [← hget] at hl
              omega
            · exact ⟨pe, h, hps, hl⟩
        · rw [if_neg hz]
          rw [if_neg hz] at hr2
          rw [ih _ hndr hr2]
          constructor
          · rintro ⟨pe, hpe, hps, hl⟩
            exact ⟨pe, List.mem_cons_of_mem _ hpe, hps, hl⟩
          · rintro ⟨pe, hpe, hps, hl⟩
            rcases List.mem_cons.mp hpe with h | h
            · rw [h] at hl
              rw [← hget] at hl
              omega
            · exact ⟨pe, h, hps, hl⟩

theorem divOut_mem_or {p : Nat} :
    ∀ {fuel : Nat} {enc : EncMap} {m : Nat} {pe : Nat × Int},
      pe ∈ (divOut p fuel enc m).1 → pe ∈ enc ∨ pe.1 = p := by
  intro fuel
  induction fuel with
  | zero => intro enc m pe h; exact Or.inl (by simpa [divOut] using h)
  | succ fuel ih =>
    intro enc m pe h
    by_cases hm : m % p = 0
    · rw [divOut, if_pos hm] at h
      rcases ih h with h' | h'
      · rcases mem_dset h' with h'' | h''
        · exact Or.inr (by rw [h''])
        · exact Or.inl h''
      · exact Or.inr h'
    · rw [divOut, if_neg hm] at h
      exact Or.inl h

theorem divOut_dvd (p : Nat) :
    ∀ (fuel : Nat) (enc : EncMap) (m : Nat), (divOut p fuel enc m).2 ∣ m := by
  intro fuel
  induction fuel with
  | zero => intro enc m; simp [divOut]
  | succ fuel ih =>
    intro enc m
    by_cases hm : m % p = 0
    · rw [divOut, if_pos hm]
      exact (ih _ _).trans (Nat.div_dvd_of_dvd (Nat.dvd_of_mod_eq_zero hm))
    · rw [divOut, if_neg hm]

theorem divOut_pos (p : Nat) (hp : 2 ≤ p) :
    ∀ (fuel : Nat) (enc : EncMap) (m : Nat), 1 ≤ m →
      1 ≤ (divOut p fuel enc m).2 := by
  intro fuel
  induction fuel with
  | zero => intro enc m h1; simpa [divOut] using h1
  | succ fuel ih =>
    intro enc m h1
    by_cases hm : m % p = 0
    · rw [divOut, if_pos hm]
      refine ih _ _ ?_
      have hd : p ∣ m := Nat.dvd_of_mod_eq_zero hm
      have := Nat.le_of_dvd (by omega) hd
      exact (Nat.one_le_div_iff (by omega)).mpr this
    · rw [divOut, if_neg hm]
      exact h1

theorem divOut_not_dvd (p : Nat) (hp : 2 ≤ p) :
    ∀ (fuel m : Nat) (enc : EncMap), 1 ≤ m → m ≤ fuel →
      ¬ p ∣ (divOut p fuel enc m).2 := by
  intro fuel
  induction fuel with
  | zero => intro m enc h1 h2; omega
  | succ fuel ih =>
    intro m enc h1 h2
    by_cases hm : m % p = 0
    · rw [divOut, if_pos hm]
      have hd : p ∣ m := Nat.dvd_of_mod_eq_zero hm
      have hple := Nat.le_of_dvd (by omega) hd
      have hlt : m / p < m := Nat.div_lt_self (by omega) (by omega)
      have hge : 1 ≤ m / p := (Nat.one_le_div_iff (by omega)).mpr hple
      exact ih (m / p) _ hge (by omega)
    · rw [divOut, if_neg hm]
      exact fun hd => hm (Nat.mod_eq_zero_of_dvd hd)

/-- Full specification of the trial-division loop: result entries come from
the seed or are `nthPrime` values; the remainder divides the input, stays
positive, and either the loop broke at some `j` with `nthPrime j² >`
remainder, or every prime below `nthPrime (i+count)` has been divided out. -/
theorem trialLoop_spec :
    ∀ (count i : Nat) (enc : EncMap) (m : Nat), 1 ≤ m →
      (∀ q, Nat.Prime q → q < nthPrime i → ¬ q ∣ m) →
      (∀ pe ∈ (trialLoop i count enc m).1, pe ∈ enc ∨ ∃ j, pe.1 = nthPrime j) ∧
      1 ≤ (trialLoop i count enc m).2 ∧
      (trialLoop i count enc m).2 ∣ m ∧
      ((∃ j, (∀ q, Nat.Prime q → q < nthPrime j →
                ¬ q ∣ (trialLoop i count enc m).2) ∧
          (trialLoop i count enc m).2 < nthPrime j * nthPrime j)
        ∨ (∀ q, Nat.Prime q → q < nthPrime (i + count) →
            ¬ q ∣ (trialLoop i count enc m).2)) := by
  intro count
  induction count with
  | zero =>
    intro i enc m h1 hns
    refine ⟨fun pe hpe => Or.inl (by simpa [trialLoop] using hpe),
      by simpa [trialLoop] using h1, by simp [trialLoop],
      Or.inr (by simpa [trialLoop] using hns)⟩
  | succ count ih =>
    intro i enc m h1 hns
    by_cases hb : nthPrime i * nthPrime i > m
    · have ht : trialLoop i (count+1) enc m = (enc, m) := by
        simp [trialLoop, hb]
      rw [ht]
      exact ⟨fun pe hpe => Or.inl hpe, h1, dvd_rfl, Or.inl ⟨i, hns, hb⟩⟩
    · have ht : trialLoop i (count+1) enc m =
          trialLoop (i+1) count (divOut (nthPrime i) m enc m).1
            (divOut (nthPrime i) m enc m).2 := by
        simp [trialLoop, hb]
      rw [ht]
      have hp2 := nthPrime_two_le i
      have hd1 : 1 ≤ (divOut (nthPrime i) m enc m).2 :=
        divOut_pos _ hp2 _ _ _ h1
      have hdd : (divOut (nthPrime i) m enc m).2 ∣ m := divOut_dvd _ _ _ _
      have hnd : ∀ q, Nat.Prime q → q < nthPrime (i+1) →
          ¬ q ∣ (divOut (nthPrime i) m enc m).2 := by
        intro q hq hlt hdvd
        by_cases hqi : q < nthPrime i
        · exact hns q hq hqi (hdvd.trans hdd)
        · by_cases hqe : q = nthPrime i
          · exact divOut_not_dvd _ hp2 m m enc h1 le_rfl (hqe ▸ hdvd)
          · have hgt : nthPrime i < q := by omega
            exact absurd (nthPrime_no_gap hq i hgt) (by omega)
      have hrec := ih (i+1) (divOut (nthPrime i) m enc m).1
        (divOut (nthPrime i) m enc m).2 hd1 hnd
      refine ⟨?_, hrec.2.1, hrec.2.2.1.trans hdd, ?_⟩
      · intro pe hpe
        rcases hrec.1 pe hpe with h | h
        · rcases divOut_mem_or h with h' | h'
          · exact Or.inl h'
          · exact Or.inr ⟨i, h'⟩
        · exact Or.inr h
      · rcases hrec.2.2.2 with h | h
        · exact Or.inl h
        · refine Or.inr ?_
          have he : i + 1 + count = i + (count + 1) := by omega
          rw [he] at h
          exact h

/-- If no prime below `nthPrime j` divides `m'` and `m' < nthPrime j ^ 2`,
then `m'` is prime (the spec's square-root argument). -/
theorem remainder_prime {m' : Nat} (h1 : 1 < m') (j : Nat)
    (hns : ∀ q, Nat.Prime q → q < nthPrime j → ¬ q ∣ m')
    (hsq : m' < nthPrime j * nthPrime j) : Nat.Prime m' := by
  by_contra hnp
  have hmf := Nat.minFac_prime (show m' ≠ 1 by omega)
  have hdvd := Nat.minFac_dvd m'
  have hge : nthPrime j ≤ m'.minFac := by
    by_contra hlt
    exact hns _ hmf (by omega) hdvd
  have hsq2 := Nat.minFac_sq_le_self (show 0 < m' by omega) hnp
  have h3 : nthPrime j * nthPrime j ≤ m'.minFac * m'.minFac :=
    Nat.mul_le_mul hge hge
  have h4 : m'.minFac ^ 2 = m'.minFac * m'.minFac := pow_two _
  omega

/-- Exhaust-case remainder primality: all registry primes were tried and
the input was at most the square of the largest registry prime. -/
theorem remainder_prime_exhaust {m' : Nat} (h1 : 1 < m') (count : Nat)
    (hc : 1 ≤ count)
    (hns : ∀ q, Nat.Prime q → q < nthPrime count → ¬ q ∣ m')
    (hle : m' ≤ nthPrime (count - 1) * nthPrime (count - 1)) :
    Nat.Prime m' := by
  by_contra hnp
  have hmf := Nat.minFac_prime (show m' ≠ 1 by omega)
  have hdvd := Nat.minFac_dvd m'
  have hge : nthPrime count ≤ m'.minFac := by
    by_contra hlt
    exact hns _ hmf (by omega) hdvd
  have hstep : nthPrime (count - 1) < nthPrime count := by
    have := nthPrime_lt_succ (count - 1)
    have he : count - 1 + 1 = count := by omega
    rwa [he] at this
  have hsq2 := Nat.minFac_sq_le_self (show 0 < m' by omega) hnp
  have h3 : nthPrime count * nthPrime count ≤ m'.minFac * m'.minFac :=
    Nat.mul_le_mul hge hge
  have h4 : m'.minFac ^ 2 = m'.minFac * m'.minFac := pow_two _
  have h5 : nthPrime (count - 1) * nthPrime (count - 1) <
      nthPrime count * nthPrime count :=
    Nat.mul_lt_mul_of_lt_of_le hstep (le_of_lt hstep) (by omega)
  omega

theorem divOut_dget_ne {p k : Nat} (hne : k ≠ p) :
    ∀ (fuel : Nat) (enc : EncMap) (m : Nat),
      dget (divOut p fuel enc m).1 k = dget enc k := by
  intro fuel
  induction fuel with
  | zero => intro enc m; simp [divOut]
  | succ fuel ih =>
    intro enc m
    by_cases hm : m % p = 0
    · rw [divOut, if_pos hm, ih, dget_dset_ne hne]
    · rw [divOut, if_neg hm]

theorem trialLoop_two_inv :
    ∀ (count i : Nat) (enc : EncMap) (m : Nat), ¬ 2 ∣ m →
      dget (trialLoop i count enc m).1 2 = dget enc 2 ∧
        ¬ 2 ∣ (trialLoop i count enc m).2 := by
  intro count
  induction count with
  | zero => intro i enc m hm; exact ⟨by simp [trialLoop], by simpa [trialLoop] using hm⟩
  | succ count ih =>
    intro i enc m hm
    by_cases hb : nthPrime i * nthPrime i > m
    · have ht : trialLoop i (count+1) enc m = (enc, m) := by
        simp [trialLoop, hb]
      rw [ht]
      exact ⟨rfl, hm⟩
    · have ht : trialLoop i (count+1) enc m =
          trialLoop (i+1) count (divOut (nthPrime i) m enc m).1
            (divOut (nthPrime i) m enc m).2 := by
        simp [trialLoop, hb]
      rw [ht]
      have hstep : dget (divOut (nthPrime i) m enc m).1 2 = dget enc 2 ∧
          ¬ 2 ∣ (divOut (nthPrime i) m enc m).2 := by
        by_cases hp2 : nthPrime i = 2
        · cases m with
          | zero => exact absurd (dvd_zero 2) hm
          | succ mm =>
            have hmod : ¬ (mm + 1) % nthPrime i = 0 := by
              rw [hp2]
              exact fun hh => hm (Nat.dvd_of_mod_eq_zero hh)
            rw [show divOut (nthPrime i) (mm+1) enc (mm+1) = (enc, mm+1) from by
              rw [divOut, if_neg hmod]]
            exact ⟨rfl, hm⟩
        · refine ⟨divOut_dget_ne (fun hh => hp2 hh.symm) _ _ _, ?_⟩
          exact fun hd => hm (hd.trans (divOut_dvd _ _ _ _))
      have hrec := ih (i+1) (divOut (nthPrime i) m enc m).1
        (divOut (nthPrime i) m enc m).2 hstep.2
      exact ⟨hrec.1.trans hstep.1, hrec.2⟩

/-- Exact count: the `while remaining % p == 0` loop divides out every
factor of `p`, incrementing the entry at key `p` once per factor. -/
theorem divOut_dget_self (p : Nat) (hp : 2 ≤ p) :
    ∀ (fuel : Nat) (enc : EncMap) (m : Nat), 1 ≤ m → m ≤ fuel →
      ∃ k : Nat, m = p ^ k * (divOut p fuel enc m).2 ∧
        dget (divOut p fuel enc m).1 p = dget enc p + (k : Int) := by
  intro fuel
  induction fuel with
  | zero => intro enc m hm hle; exact absurd hm (by omega)
  | succ fuel ih =>
    intro enc m hm hle
    by_cases hmod : m % p = 0
    · rw [divOut, if_pos hmod]
      have hdvd : p ∣ m := Nat.dvd_of_mod_eq_zero hmod
      have hple : p ≤ m := Nat.le_of_dvd (by omega) hdvd
      have h1 : 1 ≤ m / p := (Nat.one_le_div_iff (by omega)).mpr hple
      have h2 : m / p < m := Nat.div_lt_self (by omega) (by omega)
      obtain ⟨k, hk1, hk2⟩ :=
        ih (dset enc p (dget enc p + 1)) (m / p) h1 (by omega)
      refine ⟨k + 1, ?_, ?_⟩
      · have hmp : p * (m / p) = m := Nat.mul_div_cancel' hdvd
        calc m = p * (m / p) := hmp.symm
          _ = p * (p ^ k *
              (divOut p fuel (dset enc p (dget enc p + 1)) (m / p)).2) := by
            rw [← hk1]
          _ = p ^ (k + 1) *
              (divOut p fuel (dset enc p (dget enc p + 1)) (m / p)).2 := by
            rw [pow_succ]; ring
      · rw [hk2, dget_dset_self]
        push_cast
        ring
    · rw [divOut, if_neg hmod]
      exact ⟨0, by simp, by simp⟩

/-- Starting the trial division at index 0 — whose prime is 2 — the entry
at key 2 grows by exactly the multiplicity of 2 in `m`, where a final
remainder equal to 2 itself (possible only under the early break, when
`m < 4`) accounts for the `+1` that `encode_integer` adds afterwards. -/
theorem trialLoop_two_exact (count : Nat) (hc : 1 ≤ count) (enc : EncMap)
    (m : Nat) (hm : 1 ≤ m) :
    ∃ k : Nat, 2 ^ k ∣ m ∧ ¬ 2 ^ (k + 1) ∣ m ∧
      dget (trialLoop 0 count enc m).1 2 +
        (if (trialLoop 0 count enc m).2 = 2 then (1:Int) else 0) =
        dget enc 2 + (k : Int) := by
  obtain ⟨count', rfl⟩ : ∃ c, count = c + 1 := ⟨count - 1, by omega⟩
  have h0 : nthPrime 0 = 2 := by decide
  by_cases hb : nthPrime 0 * nthPrime 0 > m
  · have ht : trialLoop 0 (count' + 1) enc m = (enc, m) := by
      simp [trialLoop, hb]
    rw [h0] at hb
    have hm4 : m < 4 := by omega
    interval_cases m
    · exact ⟨0, by decide, by decide, by rw [ht]; simp⟩
    · exact ⟨1, by decide, by decide, by rw [ht]; simp⟩
    · exact ⟨0, by decide, by decide, by rw [ht]; simp⟩
  · have ht : trialLoop 0 (count' + 1) enc m =
        trialLoop 1 count' (divOut (nthPrime 0) m enc m).1
          (divOut (nthPrime 0) m enc m).2 := by
      simp [trialLoop, hb]
    rw [h0] at ht
    obtain ⟨k, hk1, hk2⟩ := divOut_dget_self 2 (by omega) m enc m hm (le_refl m)
    have hnd : ¬ 2 ∣ (divOut 2 m enc m).2 :=
      divOut_not_dvd 2 (by omega) m m enc hm (le_refl m)
    have hinv := trialLoop_two_inv count' 1 (divOut 2 m enc m).1
      (divOut 2 m enc m).2 hnd
    refine ⟨k, ⟨_, hk1⟩, ?_, ?_⟩
    · intro hd
      have h2 : 2 ^ k * 2 ∣ 2 ^ k * (divOut 2 m enc m).2 := by
        rw [← pow_succ, ← hk1]
        exact hd
      exact hnd ((Nat.mul_dvd_mul_iff_left
        (pow_pos (show (0:Nat) < 2 by omega) k)).mp h2)
    · rw [ht, if_neg (fun hh => hinv.2 ⟨1, by omega⟩), hinv.1, hk2]
      omega

/-- Closed form of `encode_integer` on a negative input. -/
theorem encodeInteger_neg_eq (st : St) (n : Int) (hn : n ≠ 0) (hneg : n < 0) :
    encodeInteger st n = some (
      if 1 < (trialLoop 0 st.nextIndex [(st.signPrime, 1)] n.natAbs).2 then
        dset (trialLoop 0 st.nextIndex [(st.signPrime, 1)] n.natAbs).1
          (trialLoop 0 st.nextIndex [(st.signPrime, 1)] n.natAbs).2
          (dget (trialLoop 0 st.nextIndex [(st.signPrime, 1)] n.natAbs).1
            (trialLoop 0 st.nextIndex [(st.signPrime, 1)] n.natAbs).2 + 1)
      else (trialLoop 0 st.nextIndex [(st.signPrime, 1)] n.natAbs).1) := by
  rw [encodeInteger, if_neg hn]
  simp [hneg]

/-! ### Claim C1 -/

/-- C1: the round-trip claim `decode(encode(n)) = n` fails on the code:
with a fresh encoder, `encode_integer(2)` yields `{2: 1}` and
`decode_integer` reads the exponent of 2 — the sign marker — as sign
parity, returning `-1`, not `2`.  (The sign marker is the prime 2, so it
collides with the prime factor 2; the claimed round trip is the code's
documented intent, so this is a code bug.) -/
theorem c1_roundtrip_fails_at_two :
    (encodeInteger initSt 2).map (decodeInteger initSt) = some (-1) ∧
      (2:Int) ≠ -1 := by
  constructor
  · decide
  · decide

/-! ### Claim C5 -/

/-- C5: `divide(a, b)` fails with the "not divisible" error iff some
non-sign-marker prime's exponent in `b` exceeds its exponent in `a`; a
sign-marker deficit never errors (it only adjusts sign parity).  The
hypothesis states that `b` is a genuine dict (no duplicate keys). -/
theorem c5_divide_error_iff (sp : Nat) (a b : EncMap)
    (hnd : (b.map Prod.fst).Nodup) :
    divideMap sp a b = none ↔ ∃ pe ∈ b, pe.1 ≠ sp ∧ dget a pe.1 < pe.2 :=
  divideLoop_none_iff b a hnd (fun _ _ => rfl)

/-- C5 witness: with sign marker 2, dividing `{3:1}` by `{3:2}` errors, and
the criterion instance holds concretely. -/
theorem c5_divide_error_iff_witness :
    ((([(3, 2)] : EncMap).map Prod.fst).Nodup ∧
      (divideMap 2 [(3, 1)] [(3, 2)] = none ↔
        ∃ pe ∈ ([(3, 2)] : EncMap), pe.1 ≠ 2 ∧ dget [(3, 1)] pe.1 < pe.2)) ∧
    divideMap 2 [(3, 1)] [(3, 2)] = none ∧
    divideMap 2 [(2, 3)] [(2, 5)] = some [(2, -2)] :=
  ⟨⟨by decide, c5_divide_error_iff 2 [(3, 1)] [(3, 2)] (by decide)⟩,
    by decide, by decide⟩

/-! ### Claim C6 -/

/-- C6 counterexample: `encode_integer(-2)` on a fresh encoder returns
`{2: 2}` — the sign marker's exponent in the result is 2, not 1 as the
claim states (the sign marker is the prime 2, so the factor 2 of `|n|`
lands on the same entry). -/
theorem c6_counterexample :
    encodeInteger initSt (-2) = some [(2, 2)] ∧
      dget [(2, 2)] initSt.signPrime ≠ 1 := by
  constructor
  · decide
  · decide

/-- C6 amended: `encode_integer` raises exactly on `n = 0`; for negative
`n` (on a store whose sign marker is the prime 2 and whose registry is
non-empty — both forced by the constructor, which hands the sign marker
out as the first prime) the sign marker's exponent starts at 1 and also
absorbs the factors 2 of `|n|`: it ends at `1 + (multiplicity of 2 in
|n|)`, hence equals 1 exactly when `|n|` is odd. -/
theorem c6_amended (st : St) (n : Int) :
    (encodeInteger st n = none ↔ n = 0) ∧
    (st.signPrime = 2 → 1 ≤ st.nextIndex → n < 0 →
      ∃ (m : EncMap) (k : Nat), encodeInteger st n = some m ∧
        2 ^ k ∣ n.natAbs ∧ ¬ 2 ^ (k + 1) ∣ n.natAbs ∧
        dget m 2 = 1 + (k : Int) ∧
        (dget m 2 = 1 ↔ ¬ (2:Int) ∣ n)) := by
  constructor
  · unfold encodeInteger
    by_cases hn : n = 0
    · simp [hn]
    · simp [hn]
  · intro hsgn hidx hneg
    have hn : n ≠ 0 := by omega
    have hm : 1 ≤ n.natAbs := by omega
    obtain ⟨k, hdk, hndk, heq⟩ :=
      trialLoop_two_exact st.nextIndex hidx [(st.signPrime, 1)] n.natAbs hm
    have hget1 : dget [(st.signPrime, (1:Int))] 2 = 1 := by
      rw [hsgn]
      simp [dget]
    rw [hget1] at heq
    set r := trialLoop 0 st.nextIndex [(st.signPrime, 1)] n.natAbs with hr
    have hval : dget (if 1 < r.2 then dset r.1 r.2 (dget r.1 r.2 + 1)
        else r.1) 2 = 1 + (k : Int) := by
      by_cases h2 : 1 < r.2
      · rw [if_pos h2]
        by_cases hr2 : r.2 = 2
        · rw [if_pos hr2] at heq
          rw [hr2, dget_dset_self]
          omega
        · rw [if_neg hr2] at heq
          rw [dget_dset_ne (fun hh => hr2 hh.symm)]
          omega
      · rw [if_neg h2]
        rw [if_neg (show ¬ r.2 = 2 by omega)] at heq
        omega
    refine ⟨if 1 < r.2 then dset r.1 r.2 (dget r.1 r.2 + 1) else r.1, k,
      ?_, hdk, hndk, hval, ?_⟩
    · rw [encodeInteger_neg_eq st n hn hneg, hr]
    · rw [hval]
      constructor
      · intro h1
        have hk0 : k = 0 := by omega
        subst hk0
        intro hd
        have hdn : (2:Nat) ∣ n.natAbs := by
          have := Int.natAbs_dvd_natAbs.mpr hd
          simpa using this
        exact hndk (by simpa using hdn)
      · intro hnd
        have hk0 : k = 0 := by
          by_contra hk
          have hdn : (2:Nat) ∣ n.natAbs :=
            dvd_trans (dvd_pow_self 2 hk) hdk
          refine hnd (Int.natAbs_dvd_natAbs.mp ?_)
          simpa using hdn
        omega

/-- C6 amended witness: on the fresh encoder, `encode_integer` rejects
exactly zero and maps `-12` to `{2: 3, 3: 1}`: the sign marker's exponent
3 is `1 + 2`, the multiplicity of 2 in 12, and is not 1 since 12 is
even. -/
theorem c6_amended_witness :
    ((encodeInteger initSt (-12) = none ↔ (-12:Int) = 0) ∧
      (∃ (m : EncMap) (k : Nat), encodeInteger initSt (-12) = some m ∧
        2 ^ k ∣ (-12:Int).natAbs ∧ ¬ 2 ^ (k + 1) ∣ (-12:Int).natAbs ∧
        dget m 2 = 1 + (k : Int) ∧
        (dget m 2 = 1 ↔ ¬ (2:Int) ∣ (-12:Int)))) ∧
    encodeInteger initSt (-12) = some [(2, 3), (3, 1)] :=
  ⟨⟨(c6_amended initSt (-12)).1,
      (c6_amended initSt (-12)).2 (by decide) (by decide) (by decide)⟩,
    by decide⟩

/-! ### Claim C7 -/

/-- C7 counterexample: on a fresh encoder (registry = just the sign
marker), `encode_integer(15)` records the composite remainder 15 as a
factor — a non-sign key that is not prime, refuting the claim for every
registry state. -/
theorem c7_counterexample :
    encodeInteger initSt 15 = some [(15, 1)] ∧
      ¬ Nat.Prime 15 ∧ (15:Nat) ≠ initSt.signPrime := by
  refine ⟨by decide, by decide, by decide⟩

/-- C7 amended: every non-sign key of `encode_integer(n)` is prime
provided the registry's largest known prime `P = nthPrime (nextIndex - 1)`
satisfies `|n| ≤ P²` (so the trial division cannot exhaust the registry
with a composite remainder); without that bound the recorded remainder can
be composite. -/
theorem c7_amended (st : St) (n : Int) (m : EncMap)
    (hidx : 1 ≤ st.nextIndex)
    (hsz : n.natAbs ≤ nthPrime (st.nextIndex - 1) * nthPrime (st.nextIndex - 1))
    (h : encodeInteger st n = some m) :
    ∀ pe ∈ m, pe.1 ≠ st.signPrime → Nat.Prime pe.1 := by
  by_cases hn : n = 0
  · rw [hn] at h
    simp [encodeInteger] at h
  · simp only [encodeInteger, if_neg hn, Option.some.injEq] at h
    have h1 : 1 ≤ n.natAbs := by
      have hh : n.natAbs ≠ 0 := fun hh => hn (Int.natAbs_eq_zero.mp hh)
      omega
    have hns0 : ∀ q, Nat.Prime q → q < nthPrime 0 → ¬ q ∣ n.natAbs := by
      intro q hq hlt
      have h2q := hq.two_le
      have h20 : nthPrime 0 = 2 := rfl
      omega
    have hspec := trialLoop_spec st.nextIndex 0
      (if n < 0 then [(st.signPrime, 1)] else []) n.natAbs h1 hns0
    set r := trialLoop 0 st.nextIndex
      (if n < 0 then [(st.signPrime, 1)] else []) n.natAbs with hrdef
    have hkeys : ∀ pe ∈ r.1, pe.1 = st.signPrime ∨ ∃ j, pe.1 = nthPrime j := by
      intro pe hpe
      rcases hspec.1 pe hpe with hh | hh
      · left
        by_cases hneg : n < 0
        · rw [if_pos hneg] at hh
          rw [List.mem_singleton] at hh
          rw [hh]
        · rw [if_neg hneg] at hh
          simp at hh
      · right
        exact hh
    have hrem : 1 < r.2 → Nat.Prime r.2 := by
      intro h2
      rcases hspec.2.2.2 with ⟨j, hnsj, hsqj⟩ | hexh
      · exact remainder_prime h2 j hnsj hsqj
      · refine remainder_prime_exhaust h2 st.nextIndex hidx
          (by simpa using hexh) ?_
        have := Nat.le_of_dvd (by omega) hspec.2.2.1
        omega
    intro pe hpe hsgn
    rw [← h] at hpe
    by_cases h2 : 1 < r.2
    · rw [if_pos h2] at hpe
      rcases mem_dset hpe with hh | hh
      · rw [hh]
        exact hrem h2
      · rcases hkeys pe hh with hh' | ⟨j, hj⟩
        · exact absurd hh' hsgn
        · rw [hj]
          exact nthPrime_prime j
    · rw [if_neg h2] at hpe
      rcases hkeys pe hpe with hh' | ⟨j, hj⟩
      · exact absurd hh' hsgn
      · rw [hj]
        exact nthPrime_prime j

/-- C7 amended witness: on the fresh registry (largest known prime 2,
4 = 2² ≥ |n|), every non-sign key of `encode_integer(4)` is prime. -/
theorem c7_amended_witness :
    encodeInteger initSt 4 = some [(2, 2)] ∧
      ∀ pe ∈ ([(2, 2)] : EncMap), pe.1 ≠ initSt.signPrime → Nat.Prime pe.1 :=
  ⟨by decide, c7_amended initSt 4 [(2, 2)] (by decide) (by decide) (by decide)⟩

/-! ### Claim C8 -/

/-- C8 counterexample: `divide({2:1}, {2:1})` with sign marker 2 returns
`{2: 0}` — the sign-marker entry is written back with exponent 0 rather
than being dropped (the sign branch `continue`s before the zero-deletion
check), refuting the claim for `divide`. -/
theorem c8_counterexample :
    divideMap 2 [(2, 1)] [(2, 1)] = some [(2, 0)] ∧
      ∃ pe ∈ ([(2, 0)] : EncMap), pe.2 = 0 := by
  refine ⟨by decide, by decide⟩

/-- C8 amended: `encode_integer` and `multiply` never store a zero
exponent, and `divide` never stores a zero exponent at a non-sign key
(given a well-formed `a`); only the sign marker's entry can be left at
zero (or negative) by `divide`. -/
theorem c8_amended :
    (∀ (st : St) (n : Int) (m : EncMap), encodeInteger st n = some m →
      ∀ pe ∈ m, pe.2 ≠ 0) ∧
    (∀ a b : EncMap, ∀ pe ∈ multiplyMap a b, pe.2 ≠ 0) ∧
    (∀ (sp : Nat) (a b m : EncMap), (∀ pe ∈ a, pe.1 ≠ sp → pe.2 ≠ 0) →
      divideMap sp a b = some m → ∀ pe ∈ m, pe.1 ≠ sp → pe.2 ≠ 0) := by
  refine ⟨?_, ?_, ?_⟩
  · intro st n m h pe hpe
    have := encodeInteger_pos_entries h pe hpe
    omega
  · intro a b pe hpe
    have := List.mem_filter.mp hpe
    simpa using this.2
  · intro sp a b m ha h
    exact divideLoop_nonzero b a m ha h

/-- C8 amended witness: concrete instances of all three parts. -/
theorem c8_amended_witness :
    (∀ pe ∈ ([(2, 2)] : EncMap), pe.2 ≠ 0) ∧
    (∀ pe ∈ multiplyMap [(2, 1), (3, 2)] [(2, -1), (5, 1)], pe.2 ≠ 0) ∧
    (∀ pe ∈ ([(3, 1)] : EncMap), pe.1 ≠ 2 → pe.2 ≠ 0) :=
  ⟨c8_amended.1 initSt 4 [(2, 2)] (by decide),
    c8_amended.2.1 [(2, 1), (3, 2)] [(2, -1), (5, 1)],
    c8_amended.2.2 2 [(3, 2)] [(3, 1)] [(3, 1)] (by decide) (by decide)⟩

/-! ### Progress and frame lemmas -/

theorem progress_refl (st : St) : Progress st st :=
  ⟨⟨rfl, rfl, rfl⟩, fun _ h => h, fun _ h => h⟩

theorem progress_trans {st1 st2 st3 : St}
    (h1 : Progress st1 st2) (h2 : Progress st2 st3) : Progress st1 st3 := by
  obtain ⟨⟨f1, f2, f3⟩, m1, m2⟩ := h1
  obtain ⟨⟨g1, g2, g3⟩, n1, n2⟩ := h2
  exact ⟨⟨g1.trans f1, g2.trans f2, g3.trans f3⟩,
    fun s h => n1 s (m1 s h), fun p h => n2 p (m2 p h)⟩

theorem alookup_alset_self {α β : Type} [DecidableEq α]
    (m : List (α × β)) (k : α) (v : β) : alookup (alset m k v) k = some v := by
  induction m with
  | nil => simp [alset, alookup]
  | cons hd tl ih =>
    rcases hd with ⟨k0, v0⟩
    by_cases hk : k0 = k
    · rw [alset, if_pos hk, alookup, if_pos hk]
    · rw [alset, if_neg hk, alookup, if_neg hk]
      exact ih

theorem alookup_alset_ne {α β : Type} [DecidableEq α]
    (m : List (α × β)) (k : α) (v : β) {k' : α} (h : k' ≠ k) :
    alookup (alset m k v) k' = alookup m k' := by
  induction m with
  | nil =>
    simp only [alset, alookup]
    rw [if_neg (fun hh : k = k' => h hh.symm)]
  | cons hd tl ih =>
    rcases hd with ⟨k0, v0⟩
    by_cases hk : k0 = k
    · subst hk
      have hne : ¬ k0 = k' := fun hh => h hh.symm
      have h1 : alset ((k0, v0) :: tl) k0 v = (k0, v) :: tl := by
        simp [alset]
      rw [h1]
      simp only [alookup]
      rw [if_neg hne, if_neg hne]
    · simp only [alset, if_neg hk, alookup]
      by_cases hk' : k0 = k'
      · rw [if_pos hk', if_pos hk']
      · rw [if_neg hk', if_neg hk', ih]

theorem alset_lookup_mono {α β : Type} [DecidableEq α]
    (m : List (α × β)) (k : α) (v : β) (k' : α)
    (h : (alookup m k').isSome) : (alookup (alset m k v) k').isSome := by
  by_cases hk : k' = k
  · rw [hk, alookup_alset_self]
    simp
  · rw [alookup_alset_ne m k v hk]
    exact h

theorem getPrime_progress (st : St) (c : String) :
    Progress st (getPrime st c).2 := by
  cases h : alookup st.c2p (strLower c) with
  | some p =>
    simp only [getPrime, h]
    exact progress_refl st
  | none =>
    simp only [getPrime, h, assignPrime]
    refine ⟨⟨rfl, rfl, rfl⟩, ?_, ?_⟩
    · intro s hs
      exact alset_lookup_mono _ _ _ _ hs
    · intro p hp
      exact alset_lookup_mono _ _ _ _ hp

theorem getPrime_c2p_after (st : St) (c : String) :
    (alookup (getPrime st c).2.c2p (strLower c)).isSome := by
  cases h : alookup st.c2p (strLower c) with
  | some p =>
    simp only [getPrime, h]
    simp [h]
  | none =>
    simp only [getPrime, h, assignPrime]
    rw [alookup_alset_self]
    simp

theorem encodeFact_progress (st : St) (f : Fact) :
    Progress st (encodeFact st f).2 :=
  progress_trans (getPrime_progress st f.subject)
    (progress_trans (getPrime_progress _ f.predicate)
      (getPrime_progress _ f.object))

theorem encodeFact_c2p_after (st : St) (f : Fact) :
    (alookup (encodeFact st f).2.c2p (strLower f.subject)).isSome ∧
    (alookup (encodeFact st f).2.c2p (strLower f.predicate)).isSome ∧
    (alookup (encodeFact st f).2.c2p (strLower f.object)).isSome := by
  refine ⟨?_, ?_, ?_⟩
  · exact (getPrime_progress _ f.object).2.1 _
      ((getPrime_progress _ f.predicate).2.1 _ (getPrime_c2p_after st f.subject))
  · exact (getPrime_progress _ f.object).2.1 _
      (getPrime_c2p_after (getPrime st f.subject).2 f.predicate)
  · exact getPrime_c2p_after _ f.object

theorem univChainLoop_progress
    (rec : St → String → List String → Option (List String) × St × List String)
    (hrec : ∀ s2 pn v2, Progress s2 (rec s2 pn v2).2.1)
    (subjPrime : Nat) (subj : String) :
    ∀ (rs : List ERule) (st : St) (vis : List String),
      Progress st (univChainLoop rec subjPrime subj st vis rs).2.1 := by
  intro rs
  induction rs with
  | nil => intro st vis; exact progress_refl st
  | cons r rest ih =>
    intro st vis
    cases r with
    | universalR catP propP pp ce cle =>
      rw [univChainLoop]
      by_cases hc : catP = subjPrime
      · rw [if_pos hc]
        cases hl : primeToConcept st propP with
        | none => exact ih st vis
        | some propName =>
          dsimp only
          by_cases he : propName = ""
          · rw [if_pos he]
            exact ih st vis
          · rw [if_neg he]
            rcases hr : rec st propName vis with ⟨copt, st2, vis2⟩
            have hp : Progress st st2 := by
              have := hrec st propName vis
              rw [hr] at this
              exact this
            cases copt with
            | some chain => exact hp
            | none => exact progress_trans hp (ih st2 vis2)
      · rw [if_neg hc]
        exact ih st vis
    | capabilityR catP propP pp ce cle => exact ih st vis
    | standardR ces cle => exact ih st vis

theorem universalChain_progress :
    ∀ (fuel : Nat) (st : St) (subj target : String) (vis : List String),
      Progress st (universalChain fuel st subj target vis).2.1 := by
  intro fuel
  induction fuel with
  | zero => intro st subj target vis; exact progress_refl st
  | succ fuel ih =>
    intro st subj target vis
    rw [universalChain]
    by_cases h1 : subj = target
    · rw [if_pos h1]
      exact progress_refl st
    · rw [if_neg h1]
      by_cases h2 : subj ∈ vis
      · rw [if_pos h2]
        exact progress_refl st
      · rw [if_neg h2]
        have hg := getPrime_progress st subj
        exact progress_trans hg
          (univChainLoop_progress _ (fun s2 pn v2 => ih s2 pn target v2) _ _ _ _ _)

theorem triple_some_inj {α β γ : Type} {a a' : α} {b b' : β} {c c' : γ}
    (h : (some (a, b, c) : Option (α × β × γ)) = some (a', b', c')) :
    a = a' ∧ b = b' ∧ c = c' := by
  simp only [Option.some.injEq, Prod.mk.injEq] at h
  exact h

theorem tryUnivCap_pres
    (rec : St → Fact → List String → Option (DOut × St × List String))
    (hrec : RecPres rec) (q : Fact) :
    ∀ (rs : List ERule) (st : St) (vis : List String) (out : Option DOut)
      (st' : St) (vis' : List String),
      tryUnivCap rec q st vis rs = some (out, st', vis') →
      Progress st st' ∧ vis ⊆ vis' := by
  intro rs
  induction rs with
  | nil =>
    intro st vis out st' vis' h
    rw [tryUnivCap] at h
    obtain ⟨ho, hs, hv⟩ := triple_some_inj h
    subst hs hv
    exact ⟨progress_refl st, fun x hx => hx⟩
  | cons r rest ih =>
    intro st vis out st' vis' h
    cases hk : eruleKind r with
    | none =>
      rw [tryUnivCap, hk] at h
      exact ih st vis out st' vis' h
    | some cpb =>
      obtain ⟨catP, propP, isUniv⟩ := cpb
      rw [tryUnivCap, hk] at h
      dsimp only at h
      by_cases hpred : q.predicate = (if isUniv then "is" else "can")
      · rw [if_pos hpred] at h
        by_cases hobj : (getPrime st q.object).1 = propP
        · rw [if_pos hobj] at h
          cases hcat : primeToConcept (getPrime st q.object).2 catP with
          | none =>
            rw [hcat] at h
            obtain ⟨ho, hs, hv⟩ := triple_some_inj h
            subst hs hv
            exact ⟨getPrime_progress st q.object, fun x hx => hx⟩
          | some catName =>
            rw [hcat] at h
            dsimp only at h
            rcases hrc : rec (getPrime st q.object).2 ⟨q.subject, "is", catName⟩
                vis with _ | ⟨o2, st2, vis2⟩
            · rw [hrc] at h
              exact absurd h (by simp)
            · rw [hrc] at h
              have hprog := hrec _ _ _ _ _ _ hrc
              cases o2 with
              | exn =>
                obtain ⟨ho, hs, hv⟩ := triple_some_inj h
                subst hs hv
                exact ⟨progress_trans (getPrime_progress st q.object) hprog.1,
                  hprog.2⟩
              | ok sub =>
                dsimp only at h
                by_cases hres : sub.result = true
                · rw [if_pos hres] at h
                  cases hcat2 : primeToConcept st2 catP with
                  | none =>
                    rw [hcat2] at h
                    obtain ⟨ho, hs, hv⟩ := triple_some_inj h
                    subst hs hv
                    exact ⟨progress_trans (getPrime_progress st q.object)
                      hprog.1, hprog.2⟩
                  | some catName2 =>
                    rw [hcat2] at h
                    dsimp only at h
                    obtain ⟨ho, hs, hv⟩ := triple_some_inj h
                    subst hs hv
                    exact ⟨progress_trans (getPrime_progress st q.object)
                      hprog.1, hprog.2⟩
                · rw [if_neg hres] at h
                  have hih := ih _ _ _ _ _ h
                  exact ⟨progress_trans (getPrime_progress st q.object)
                    (progress_trans hprog.1 hih.1),
                    List.Subset.trans hprog.2 hih.2⟩
        · rw [if_neg hobj] at h
          have hih := ih _ _ _ _ _ h
          exact ⟨progress_trans (getPrime_progress st q.object) hih.1, hih.2⟩
      · rw [if_neg hpred] at h
        exact ih st vis out st' vis' h

theorem tryConds_pres
    (rec : St → Fact → List String → Option (DOut × St × List String))
    (hrec : RecPres rec) :
    ∀ (ces : List EncMap) (st : St) (vis acc : List String) (co : COut)
      (st' : St) (vis' : List String),
      tryConds rec st vis acc ces = some (co, st', vis') →
      Progress st st' ∧ vis ⊆ vis' := by
  intro ces
  induction ces with
  | nil =>
    intro st vis acc co st' vis' h
    rw [tryConds] at h
    obtain ⟨ho, hs, hv⟩ := triple_some_inj h
    subst hs hv
    exact ⟨progress_refl st, fun x hx => hx⟩
  | cons ce rest ih =>
    intro st vis acc co st' vis' h
    rw [tryConds] at h
    cases hdf : decodeFact st ce with
    | none =>
      rw [hdf] at h
      obtain ⟨ho, hs, hv⟩ := triple_some_inj h
      subst hs hv
      exact ⟨progress_refl st, fun x hx => hx⟩
    | some cf =>
      rw [hdf] at h
      dsimp only at h
      rcases hrc : rec st cf vis with _ | ⟨o2, st2, vis2⟩
      · rw [hrc] at h
        exact absurd h (by simp)
      · rw [hrc] at h
        have hprog := hrec _ _ _ _ _ _ hrc
        cases o2 with
        | exn =>
          obtain ⟨ho, hs, hv⟩ := triple_some_inj h
          subst hs hv
          exact hprog
        | ok sub =>
          dsimp only at h
          by_cases hres : sub.result = true
          · rw [if_pos hres] at h
            have hih := ih _ _ _ _ _ _ h
            exact ⟨progress_trans hprog.1 hih.1,
              List.Subset.trans hprog.2 hih.2⟩
          · rw [if_neg hres] at h
            obtain ⟨ho, hs, hv⟩ := triple_some_inj h
            subst hs hv
            exact hprog

theorem tryStd_pres
    (rec : St → Fact → List String → Option (DOut × St × List String))
    (hrec : RecPres rec) (q : Fact) (qEnc : EncMap) :
    ∀ (rs : List ERule) (st : St) (vis : List String) (out : Option DOut)
      (st' : St) (vis' : List String),
      tryStd rec q qEnc st vis rs = some (out, st', vis') →
      Progress st st' ∧ vis ⊆ vis' := by
  intro rs
  induction rs with
  | nil =>
    intro st vis out st' vis' h
    rw [tryStd] at h
    obtain ⟨ho, hs, hv⟩ := triple_some_inj h
    subst hs hv
    exact ⟨progress_refl st, fun x hx => hx⟩
  | cons r rest ih =>
    intro st vis out st' vis' h
    cases r with
    | universalR catP propP pp ce cle => exact ih st vis out st' vis' h
    | capabilityR catP propP pp ce cle => exact ih st vis out st' vis' h
    | standardR condEncs conclEnc =>
      rw [tryStd] at h
      by_cases hce : dictBeq conclEnc qEnc = true
      · rw [if_pos hce] at h
        rcases htc : tryConds rec st vis [] condEncs with _ | ⟨co, st2, vis2⟩
        · rw [htc] at h
          exact absurd h (by simp)
        · rw [htc] at h
          have hcp := tryConds_pres rec hrec condEncs st vis [] co st2 vis2 htc
          cases co with
          | exn =>
            obtain ⟨ho, hs, hv⟩ := triple_some_inj h
            subst hs hv
            exact hcp
          | failed =>
            dsimp only at h
            have hih := ih _ _ _ _ _ h
            exact ⟨progress_trans hcp.1 hih.1,
              List.Subset.trans hcp.2 hih.2⟩
          | okL expls =>
            obtain ⟨ho, hs, hv⟩ := triple_some_inj h
            subst hs hv
            exact hcp
      · rw [if_neg hce] at h
        exact ih st vis out st' vis' h

theorem tryTrans_pres
    (rec : St → Fact → List String → Option (DOut × St × List String))
    (hrec : RecPres rec) (q : Fact) :
    ∀ (prs : List (EncMap × Fact)) (st : St) (vis : List String)
      (out : Option DOut) (st' : St) (vis' : List String),
      tryTrans rec q st vis prs = some (out, st', vis') →
      Progress st st' ∧ vis ⊆ vis' := by
  intro prs
  induction prs with
  | nil =>
    intro st vis out st' vis' h
    rw [tryTrans] at h
    obtain ⟨ho, hs, hv⟩ := triple_some_inj h
    subst hs hv
    exact ⟨progress_refl st, fun x hx => hx⟩
  | cons pr rest ih =>
    intro st vis out st' vis' h
    rcases pr with ⟨fe, f⟩
    rw [tryTrans] at h
    by_cases hmatch : f.subject = q.subject ∧ f.predicate = q.predicate
    · rw [if_pos hmatch] at h
      dsimp only at h
      rcases hrc : rec st ⟨f.object, q.predicate, q.object⟩ vis
          with _ | ⟨o2, st2, vis2⟩
      · rw [hrc] at h
        exact absurd h (by simp)
      · rw [hrc] at h
        have hprog := hrec _ _ _ _ _ _ hrc
        cases o2 with
        | exn =>
          obtain ⟨ho, hs, hv⟩ := triple_some_inj h
          subst hs hv
          exact hprog
        | ok sub =>
          dsimp only at h
          by_cases hres : sub.result = true
          · rw [if_pos hres] at h
            obtain ⟨ho, hs, hv⟩ := triple_some_inj h
            subst hs hv
            exact hprog
          · rw [if_neg hres] at h
            have hih := ih _ _ _ _ _ h
            exact ⟨progress_trans hprog.1 hih.1,
              List.Subset.trans hprog.2 hih.2⟩
    · rw [if_neg hmatch] at h
      exact ih st vis out st' vis' h

theorem deducePost_pres
    (rec : St → Fact → List String → Option (DOut × St × List String))
    (hrec : RecPres rec) (q : Fact) (st1 : St) (vis1 : List String)
    (out : DOut) (st' : St) (vis' : List String)
    (h : deducePost rec q st1 vis1 = some (out, st', vis')) :
    Progress (encodeFact st1 q).2 st' ∧ vis1 ⊆ vis' := by
  simp only [deducePost] at h
  cases hfd : findDirect (encodeFact st1 q).1
      ((encodeFact st1 q).2.factEncodings.zip (encodeFact st1 q).2.facts) with
  | some f =>
    rw [hfd] at h
    obtain ⟨ho, hs, hv⟩ := triple_some_inj h
    subst hs hv
    exact ⟨progress_refl _, fun x hx => hx⟩
  | none =>
    rw [hfd] at h
    rcases huc : tryUnivCap rec q (encodeFact st1 q).2 vis1
        (encodeFact st1 q).2.rules with _ | ⟨o3, st3, vis3⟩
    · rw [huc] at h
      exact absurd h (by simp)
    · rw [huc] at h
      have hup := tryUnivCap_pres rec hrec q _ _ _ _ _ _ huc
      cases o3 with
      | some outv =>
        obtain ⟨ho, hs, hv⟩ := triple_some_inj h
        subst hs hv
        exact ⟨hup.1, hup.2⟩
      | none =>
        dsimp only at h
        rcases hsd : tryStd rec q (encodeFact st1 q).1 st3 vis3 st3.rules
            with _ | ⟨o4, st4, vis4⟩
        · rw [hsd] at h
          exact absurd h (by simp)
        · rw [hsd] at h
          have hsp := tryStd_pres rec hrec q _ _ _ _ _ _ _ hsd
          cases o4 with
          | some outv =>
            obtain ⟨ho, hs, hv⟩ := triple_some_inj h
            subst hs hv
            exact ⟨progress_trans hup.1 hsp.1,
              List.Subset.trans hup.2 hsp.2⟩
          | none =>
            dsimp only at h
            by_cases hpp : q.predicate = "is" ∨ q.predicate = "part of"
            · rw [if_pos hpp] at h
              rcases htt : tryTrans rec q st4 vis4
                  (st4.factEncodings.zip st4.facts) with _ | ⟨o5, st5, vis5⟩
              · rw [htt] at h
                exact absurd h (by simp)
              · rw [htt] at h
                have htp := tryTrans_pres rec hrec q _ _ _ _ _ _ htt
                cases o5 with
                | some outv =>
                  obtain ⟨ho, hs, hv⟩ := triple_some_inj h
                  subst hs hv
                  exact ⟨progress_trans hup.1 (progress_trans hsp.1 htp.1),
                    List.Subset.trans hup.2 (List.Subset.trans hsp.2 htp.2)⟩
                | none =>
                  dsimp only at h
                  obtain ⟨ho, hs, hv⟩ := triple_some_inj h
                  subst hs hv
                  exact ⟨progress_trans hup.1 (progress_trans hsp.1 htp.1),
                    List.Subset.trans hup.2 (List.Subset.trans hsp.2 htp.2)⟩
            · rw [if_neg hpp] at h
              obtain ⟨ho, hs, hv⟩ := triple_some_inj h
              subst hs hv
              exact ⟨progress_trans hup.1 hsp.1,
                List.Subset.trans hup.2 hsp.2⟩

/-- Every level of `_deduce` preserves the knowledge-base frame, only
grows the concept dictionaries, and only grows the visited set. -/
theorem deduceAux_pres : ∀ fuel : Nat, RecPres (deduceAux fuel) := by
  intro fuel
  induction fuel with
  | zero =>
    intro st q vis out st' vis' h
    rw [deduceAux] at h
    exact absurd h (by simp)
  | succ fuel ih =>
    intro st q vis out st' vis' h
    simp only [deduceAux] at h
    by_cases hv : factKey q ∈ vis
    · rw [if_pos hv] at h
      obtain ⟨ho, hs, hvv⟩ := triple_some_inj h
      subst hs hvv
      exact ⟨progress_refl st, fun x hx => hx⟩
    · rw [if_neg hv] at h
      by_cases hid : q.predicate = "is" ∧ q.subject = q.object
      · rw [if_pos hid] at h
        obtain ⟨ho, hs, hvv⟩ := triple_some_inj h
        subst hs hvv
        exact ⟨progress_refl st, fun x hx => List.mem_cons_of_mem _ hx⟩
      · rw [if_neg hid] at h
        by_cases his : q.predicate = "is"
        · rw [if_pos his] at h
          dsimp only at h
          cases hch : (universalChain (chainFuel st) st q.subject q.object []).1
              with
          | some chain =>
            rw [hch] at h
            obtain ⟨ho, hs, hvv⟩ := triple_some_inj h
            subst hs hvv
            exact ⟨universalChain_progress _ _ _ _ _,
              fun x hx => List.mem_cons_of_mem _ hx⟩
          | none =>
            rw [hch] at h
            have hp := deducePost_pres (deduceAux fuel) ih q _ _ _ _ _ h
            exact ⟨progress_trans (universalChain_progress _ _ _ _ _)
              (progress_trans (encodeFact_progress _ q) hp.1),
              fun x hx => hp.2 (List.mem_cons_of_mem _ hx)⟩
        · rw [if_neg his] at h
          dsimp only at h
          have hp := deducePost_pres (deduceAux fuel) ih q _ _ _ _ _ h
          exact ⟨progress_trans (encodeFact_progress st q) hp.1,
            fun x hx => hp.2 (List.mem_cons_of_mem _ hx)⟩

/-! ### Claim C4 -/

/-- C4: for every knowledge store (including the empty one) and every
concept name `X`, `deduce(store, X, "is", X)` returns entailed with the
self-evident explanation `"X is itself by definition"` (and leaves the
store untouched, visiting only the query key). -/
theorem c4_identity_entailed (st : St) (X : String) :
    deduce st ⟨X, "is", X⟩ =
      some (DOut.ok ⟨true, X ++ " is itself by definition", none⟩, st,
        [factKey ⟨X, "is", X⟩]) := by
  unfold deduce deduceFuel
  rw [deduceAux]
  simp [factKey]

/-! ### Claim C3 -/

/-- C3: if the predicate is `"is"`, the subject differs from the object,
and the universal-rule DFS finds a chain, `deduce` returns entailed with
the hop-by-hop explanation and the `⊆`-chain equation — before ever
encoding the query or scanning stored facts, so a directly stored copy of
the fact cannot preempt it. -/
theorem c3_chain_shortcut (st : St) (q : Fact) (chain : List String)
    (h1 : q.predicate = "is") (h2 : q.subject ≠ q.object)
    (h3 : (universalChain (chainFuel st) st q.subject q.object []).1 =
      some chain) :
    deduce st q =
      some (DOut.ok ⟨true, hopsExpl chain,
        some (String.intercalate " ⊆ " chain)⟩,
        (universalChain (chainFuel st) st q.subject q.object []).2.1,
        [factKey q]) := by
  unfold deduce deduceFuel
  rw [deduceAux]
  simp [h1, h2, h3, factKey]

/-- C3 witness: the spec's scenario — universal rules
`Hilbert_spaces → inner_product_spaces → normed_spaces` with the queried
fact also stored directly — returns the chain explanation and equation
`Hilbert_spaces ⊆ inner_product_spaces ⊆ normed_spaces`. -/
theorem c3_chain_shortcut_witness :
    (⟨"Hilbert_spaces", "is", "normed_spaces"⟩ : Fact) ∈ hilbSt.facts ∧
    hopsExpl ["Hilbert_spaces", "inner_product_spaces", "normed_spaces"] =
      "Hilbert_spaces are inner_product_spaces, and inner_product_spaces are normed_spaces" ∧
    String.intercalate " ⊆ "
        ["Hilbert_spaces", "inner_product_spaces", "normed_spaces"] =
      "Hilbert_spaces ⊆ inner_product_spaces ⊆ normed_spaces" ∧
    ∃ st2, deduce hilbSt ⟨"Hilbert_spaces", "is", "normed_spaces"⟩ =
      some (DOut.ok ⟨true,
        hopsExpl ["Hilbert_spaces", "inner_product_spaces", "normed_spaces"],
        some (String.intercalate " ⊆ "
          ["Hilbert_spaces", "inner_product_spaces", "normed_spaces"])⟩,
        st2, [factKey ⟨"Hilbert_spaces", "is", "normed_spaces"⟩]) :=
  ⟨by decide, by decide, by decide,
    ⟨_, c3_chain_shortcut hilbSt ⟨"Hilbert_spaces", "is", "normed_spaces"⟩
      ["Hilbert_spaces", "inner_product_spaces", "normed_spaces"]
      rfl (by decide) (by decide)⟩⟩

/-! ### Claim C9 -/

/-- C9: `deduce` never mutates the knowledge store — the stored fact
list, the fact-encoding list, and the rule list are identical before and
after every call (only the concept dictionaries may grow). -/
theorem c9_store_unchanged (st : St) (q : Fact) (out : DOut) (st' : St)
    (vis' : List String) (h : deduce st q = some (out, st', vis')) :
    st'.facts = st.facts ∧ st'.factEncodings = st.factEncodings ∧
      st'.rules = st.rules :=
  (deduceAux_pres (deduceFuel st q) st q [] out st' vis' h).1.1

/-- C9 witness: a concrete query on the fresh store leaves facts,
encodings and rules untouched. -/
theorem c9_store_unchanged_witness :
    deduce initSt ⟨"a", "likes", "b"⟩ =
      some (DOut.ok ⟨false, "Could not deduce: a likes b", none⟩,
        ⟨[("_sign", 2), ("a", 3), ("likes", 5), ("b", 7)],
         [(2, "_sign"), (3, "a"), (5, "likes"), (7, "b")], 4, 2, [], [], []⟩,
        ["a likes b"]) ∧
    ((⟨[("_sign", 2), ("a", 3), ("likes", 5), ("b", 7)],
       [(2, "_sign"), (3, "a"), (5, "likes"), (7, "b")], 4, 2, [], [], []⟩ :
        St).facts = initSt.facts ∧
      (⟨[("_sign", 2), ("a", 3), ("likes", 5), ("b", 7)],
        [(2, "_sign"), (3, "a"), (5, "likes"), (7, "b")], 4, 2, [], [], []⟩ :
        St).factEncodings = initSt.factEncodings ∧
      (⟨[("_sign", 2), ("a", 3), ("likes", 5), ("b", 7)],
        [(2, "_sign"), (3, "a"), (5, "likes"), (7, "b")], 4, 2, [], [], []⟩ :
        St).rules = initSt.rules) :=
  ⟨by decide, c9_store_unchanged initSt ⟨"a", "likes", "b"⟩
    (DOut.ok ⟨false, "Could not deduce: a likes b", none⟩)
    ⟨[("_sign", 2), ("a", 3), ("likes", 5), ("b", 7)],
     [(2, "_sign"), (3, "a"), (5, "likes"), (7, "b")], 4, 2, [], [], []⟩
    ["a likes b"] (by decide)⟩

/-! ### Claim C10 -/

/-- After one expanded step of `_universal_chain` on distinct endpoints,
the lower-cased subject is registered (its `get_prime` interning). -/
theorem universalChain_interns_subj (fuel : Nat) (st : St)
    (subj target : String) (hne : subj ≠ target) :
    (alookup (universalChain (fuel+1) st subj target []).2.1.c2p
      (strLower subj)).isSome := by
  rw [universalChain, if_neg hne, if_neg (List.not_mem_nil subj)]
  dsimp only
  have h1 := getPrime_c2p_after st subj
  have h2 := univChainLoop_progress
    (fun s2 pn v2 => universalChain fuel s2 pn target v2)
    (fun s2 pn v2 => universalChain_progress fuel s2 pn target v2)
    (getPrime st subj).1 subj (getPrime st subj).2.rules
    (getPrime st subj).2 [subj]
  exact h2.2.1 _ h1

/-- C10 counterexample: an identity query (`foo is foo`) mentioning a
never-seen concept returns at the identity axiom without interning
anything — the registry is exactly the fresh one afterwards, refuting the
claim that every query's components are interned. -/
theorem c10_counterexample :
    deduce initSt ⟨"foo", "is", "foo"⟩ =
      some (DOut.ok ⟨true, "foo is itself by definition", none⟩, initSt,
        ["foo is foo"]) ∧
    alookup initSt.c2p "foo" = none := by
  exact ⟨by decide, by decide⟩

/-- C10 amended: every query that does not end at the identity axiom
interns its lower-cased subject (via the chain DFS or query encoding); and
whenever the `"is"` chain shortcut does not fire, the lower-cased
predicate and object are interned as well (by `encode_fact`), so such a
query alone grows the concept registry. -/
theorem c10_amended (st : St) (q : Fact) (out : DOut) (st' : St)
    (vis' : List String)
    (hni : ¬ (q.predicate = "is" ∧ q.subject = q.object))
    (h : deduce st q = some (out, st', vis')) :
    (alookup st'.c2p (strLower q.subject)).isSome ∧
    ((q.predicate = "is" →
        (universalChain (chainFuel st) st q.subject q.object []).1 = none) →
      (alookup st'.c2p (strLower q.predicate)).isSome ∧
      (alookup st'.c2p (strLower q.object)).isSome) := by
  simp only [deduce, deduceFuel] at h
  rw [deduceAux] at h
  dsimp only at h
  rw [if_neg (List.not_mem_nil _)] at h
  rw [if_neg hni] at h
  by_cases his : q.predicate = "is"
  · rw [if_pos his] at h
    dsimp only at h
    have hsubne : q.subject ≠ q.object := fun hh => hni ⟨his, hh⟩
    cases hch : (universalChain (chainFuel st) st q.subject q.object []).1 with
    | some chain =>
      rw [hch] at h
      obtain ⟨ho, hs, hv⟩ := triple_some_inj h
      subst hs
      constructor
      · exact universalChain_interns_subj (2 * st.p2c.length + 2) st
          q.subject q.object hsubne
      · intro hz
        exact Option.noConfusion (hz his)
    | none =>
      rw [hch] at h
      have hpost := deducePost_pres _ (deduceAux_pres _) q _ _ _ _ _ h
      have hintern := encodeFact_c2p_after
        (universalChain (chainFuel st) st q.subject q.object []).2.1 q
      exact ⟨hpost.1.2.1 _ hintern.1,
        fun _ => ⟨hpost.1.2.1 _ hintern.2.1, hpost.1.2.1 _ hintern.2.2⟩⟩
  · rw [if_neg his] at h
    dsimp only at h
    have hpost := deducePost_pres _ (deduceAux_pres _) q _ _ _ _ _ h
    have hintern := encodeFact_c2p_after st q
    exact ⟨hpost.1.2.1 _ hintern.1,
      fun _ => ⟨hpost.1.2.1 _ hintern.2.1, hpost.1.2.1 _ hintern.2.2⟩⟩

/-- C10 amended witness: the non-identity query `Foo likes Bar` on the
fresh store interns `foo`, `likes` and `bar`. -/
theorem c10_amended_witness :
    (alookup (⟨[("_sign", 2), ("foo", 3), ("likes", 5), ("bar", 7)],
        [(2, "_sign"), (3, "foo"), (5, "likes"), (7, "bar")], 4, 2, [], [], []⟩ :
        St).c2p (strLower "Foo")).isSome ∧
    ((("Foo":String) = "is" →
        (universalChain (chainFuel initSt) initSt "Foo" "Bar" []).1 = none) →
      (alookup (⟨[("_sign", 2), ("foo", 3), ("likes", 5), ("bar", 7)],
          [(2, "_sign"), (3, "foo"), (5, "likes"), (7, "bar")], 4, 2, [], [], []⟩ :
          St).c2p (strLower "likes")).isSome ∧
      (alookup (⟨[("_sign", 2), ("foo", 3), ("likes", 5), ("bar", 7)],
          [(2, "_sign"), (3, "foo"), (5, "likes"), (7, "bar")], 4, 2, [], [], []⟩ :
          St).c2p (strLower "Bar")).isSome) := by
  have h := c10_amended initSt ⟨"Foo", "likes", "Bar"⟩
    (DOut.ok ⟨false, "Could not deduce: Foo likes Bar", none⟩)
    ⟨[("_sign", 2), ("foo", 3), ("likes", 5), ("bar", 7)],
     [(2, "_sign"), (3, "foo"), (5, "likes"), (7, "bar")], 4, 2, [], [], []⟩
    ["Foo likes Bar"] (by decide) (by decide)
  simpa using h

/-! ### Measure lemmas for the termination proof -/

theorem filter_length_le_of_imp {α : Type} (l : List α) (p q : α → Bool)
    (h : ∀ a, q a = true → p a = true) :
    (l.filter q).length ≤ (l.filter p).length := by
  induction l with
  | nil => exact le_refl 0
  | cons a tl ih =>
    by_cases hq : q a = true
    · have hp := h a hq
      simp only [List.filter_cons, hq, hp, if_pos, List.length_cons]
      omega
    · have hq' : q a = false := by
        cases hqa : q a
        · rfl
        · exact absurd hqa hq
      by_cases hp : p a = true
      · simp only [List.filter_cons, hq', hp, List.length_cons]
        simp only [Bool.false_eq_true, if_false, if_pos, List.length_cons]
        omega
      · have hp' : p a = false := by
          cases hpa : p a
          · rfl
          · exact absurd hpa hp
        simp only [List.filter_cons, hq', hp', Bool.false_eq_true, if_false]
        exact ih

theorem filter_length_lt {α : Type} (l : List α) (p q : α → Bool)
    (h : ∀ a, q a = true → p a = true) (a0 : α) (ha0 : a0 ∈ l)
    (hp0 : p a0 = true) (hq0 : q a0 = false) :
    (l.filter q).length < (l.filter p).length := by
  induction l with
  | nil => exact absurd ha0 (List.not_mem_nil a0)
  | cons a tl ih =>
    rcases List.mem_cons.mp ha0 with rfl | hmem
    · simp only [List.filter_cons, hp0, hq0, if_pos, Bool.false_eq_true,
        if_false, List.length_cons]
      have := filter_length_le_of_imp tl p q h
      omega
    · by_cases hq : q a = true
      · have hp := h a hq
        simp only [List.filter_cons, hq, hp, if_pos, List.length_cons]
        have := ih hmem
        omega
      · have hq' : q a = false := by
          cases hqa : q a
          · rfl
          · exact absurd hqa hq
        by_cases hp : p a = true
        · simp only [List.filter_cons, hq', hp, if_pos, Bool.false_eq_true,
            if_false, List.length_cons]
          have := ih hmem
          omega
        · have hp' : p a = false := by
            cases hpa : p a
            · rfl
            · exact absurd hpa hp
          simp only [List.filter_cons, hq', hp', Bool.false_eq_true, if_false]
          exact ih hmem

theorem measureK_mono {U vis vis' : List String} (h : vis ⊆ vis') :
    measureK U vis' ≤ measureK U vis := by
  refine filter_length_le_of_imp _ _ _ ?_
  intro a ha
  have hnv : a ∉ vis' := of_decide_eq_true ha
  exact decide_eq_true (fun hmem => hnv (h hmem))

theorem measureK_strict {U vis : List String} {key : String}
    (hk : key ∈ keysOf U) (hnv : key ∉ vis) :
    measureK U (key :: vis) < measureK U vis := by
  refine filter_length_lt _ _ _ ?_ key (List.mem_dedup.mpr hk)
    (decide_eq_true hnv) ?_
  · intro a ha
    have hna : a ∉ key :: vis := of_decide_eq_true ha
    exact decide_eq_true (fun hmem => hna (List.mem_cons_of_mem _ hmem))
  · exact decide_eq_false (fun hmem => hmem (List.mem_cons_self _ _))

theorem mkKey_mem_keysOf {U : List String} {q : Fact} (hQ : QInv U q) :
    factKey q ∈ keysOf U := by
  rcases hQ with ⟨hs, hp, ho⟩
  unfold keysOf factKey
  refine List.mem_flatMap.mpr ⟨q.subject, hs, ?_⟩
  refine List.mem_flatMap.mpr ⟨q.predicate, hp, ?_⟩
  exact List.mem_map.mpr ⟨q.object, ho, rfl⟩

theorem flatMap_const_length {α β : Type} (l : List α) (f : α → List β)
    (c : Nat) (h : ∀ a, (f a).length = c) :
    (l.flatMap f).length = l.length * c := by
  induction l with
  | nil => simp
  | cons a tl ih =>
    simp only [List.flatMap_cons, List.length_append, ih, h a,
      List.length_cons]
    ring

theorem keysOf_length (U : List String) :
    (keysOf U).length = U.length ^ 3 := by
  unfold keysOf
  rw [flatMap_const_length _ _ (U.length * U.length) (fun a => by
    rw [flatMap_const_length _ _ U.length (fun b => by simp)])]
  ring

theorem measureK_nil_lt (U : List String) :
    measureK U [] < U.length ^ 3 + 1 := by
  unfold measureK
  have h1 : ((keysOf U).dedup.filter
      (fun k => decide (k ∉ ([] : List String)))).length ≤
      (keysOf U).dedup.length := List.length_filter_le _ _
  have h2 : (keysOf U).dedup.length ≤ (keysOf U).length :=
    (List.dedup_sublist _).length_le
  have h3 := keysOf_length U
  omega

/-! ### Store-invariant lemmas -/

theorem alookup_mem_vals {α β : Type} [DecidableEq α] {m : List (α × β)}
    {k : α} {v : β} (h : alookup m k = some v) : v ∈ m.map Prod.snd := by
  induction m with
  | nil => exact absurd h (by simp [alookup])
  | cons hd tl ih =>
    rcases hd with ⟨k0, v0⟩
    by_cases hk : k0 = k
    · rw [alookup, if_pos hk] at h
      simp only [Option.some.injEq] at h
      simp [h]
    · rw [alookup, if_neg hk] at h
      simpa using Or.inr (ih h)

theorem vals_alset {α β : Type} [DecidableEq α] (m : List (α × β)) (k : α)
    (v : β) : ∀ v' ∈ (alset m k v).map Prod.snd,
      v' ∈ m.map Prod.snd ∨ v' = v := by
  induction m with
  | nil =>
    intro v' hv'
    simp only [alset, List.map_cons, List.map_nil] at hv'
    right
    simpa using hv'
  | cons hd tl ih =>
    intro v' hv'
    rcases hd with ⟨k0, v0⟩
    by_cases hk : k0 = k
    · rw [alset, if_pos hk] at hv'
      simp only [List.map_cons, List.mem_cons] at hv'
      rcases hv' with h | h
      · right; exact h
      · left; simpa using Or.inr h
    · rw [alset, if_neg hk] at hv'
      simp only [List.map_cons, List.mem_cons] at hv'
      rcases hv' with h | h
      · left; simp [h]
      · rcases ih v' h with h' | h'
        · left; simpa using Or.inr h'
        · right; exact h'

theorem wfst_of_progress {st st' : St} (hw : WFst st)
    (hp : Progress st st') : WFst st' := by
  intro r hr cp hcp
  rw [hp.1.2.2] at hr
  exact hp.2.2 _ (hw r hr cp hcp)

theorem getPrime_StInv {U : List String} {st : St} {c : String}
    (hSt : StInv U st) (hc : strLower c ∈ U) :
    StInv U (getPrime st c).2 := by
  have hp := getPrime_progress st c
  refine ⟨?_, ?_, wfst_of_progress hSt.2.2 hp⟩
  · rw [hp.1.1]
    exact hSt.1
  · intro v hv
    cases h : alookup st.c2p (strLower c) with
    | some p =>
      simp only [getPrime, h] at hv
      exact hSt.2.1 v hv
    | none =>
      simp only [getPrime, h, assignPrime, p2cVals] at hv
      rcases vals_alset st.p2c _ _ v hv with h' | h'
      · exact hSt.2.1 v h'
      · rw [h']
        exact hc

theorem encodeFact_StInv {U : List String} {st : St} {q : Fact}
    (hlc : lowerClosed U) (hSt : StInv U st) (hQ : QInv U q) :
    StInv U (encodeFact st q).2 :=
  getPrime_StInv
    (getPrime_StInv (getPrime_StInv hSt (hlc _ hQ.1)) (hlc _ hQ.2.1))
    (hlc _ hQ.2.2)

theorem univChainLoop_StInv {U : List String}
    (rec : St → String → List String → Option (List String) × St × List String)
    (hrecI : ∀ s2 pn v2, StInv U s2 → pn ∈ U → StInv U (rec s2 pn v2).2.1)
    (sp : Nat) (subj : String) :
    ∀ (rs : List ERule) (st : St) (vis : List String), StInv U st →
      StInv U (univChainLoop rec sp subj st vis rs).2.1 := by
  intro rs
  induction rs with
  | nil => intro st vis hSt; exact hSt
  | cons r rest ih =>
    intro st vis hSt
    cases r with
    | universalR catP propP pp ce cle =>
      rw [univChainLoop]
      by_cases hc : catP = sp
      · rw [if_pos hc]
        cases hl : primeToConcept st propP with
        | none => exact ih st vis hSt
        | some propName =>
          dsimp only
          have hpn : propName ∈ U :=
            hSt.2.1 _ (alookup_mem_vals hl)
          by_cases he : propName = ""
          · rw [if_pos he]
            exact ih st vis hSt
          · rw [if_neg he]
            rcases hr : rec st propName vis with ⟨copt, st2, vis2⟩
            have hi2 : StInv U st2 := by
              have := hrecI st propName vis hSt hpn
              rw [hr] at this
              exact this
            cases copt with
            | some chain => exact hi2
            | none => exact ih st2 vis2 hi2
      · rw [if_neg hc]
        exact ih st vis hSt
    | capabilityR catP propP pp ce cle => exact ih st vis hSt
    | standardR ces cle => exact ih st vis hSt

theorem universalChain_StInv {U : List String} (hlc : lowerClosed U) :
    ∀ (fuel : Nat) (st : St) (subj target : String) (vis : List String),
      StInv U st → subj ∈ U →
      StInv U (universalChain fuel st subj target vis).2.1 := by
  intro fuel
  induction fuel with
  | zero => intro st subj target vis hSt _; exact hSt
  | succ fuel ih =>
    intro st subj target vis hSt hsubj
    rw [universalChain]
    by_cases h1 : subj = target
    · rw [if_pos h1]; exact hSt
    · rw [if_neg h1]
      by_cases h2 : subj ∈ vis
      · rw [if_pos h2]; exact hSt
      · rw [if_neg h2]
        have hg := getPrime_StInv hSt (hlc _ hsubj)
        exact univChainLoop_StInv _
          (fun s2 pn v2 hs hpn => ih s2 pn target v2 hs hpn) _ _ _ _ _ hg

theorem decodeFact_comps {st : St} {enc : EncMap} {f : Fact}
    (h : decodeFact st enc = some f) :
    f.subject ∈ p2cVals st ∧ f.predicate ∈ p2cVals st ∧
      f.object ∈ p2cVals st := by
  unfold decodeFact at h
  split at h
  · rename_i s pred o
    split at h
    · rename_i sub prd obj hs hp ho
      split at h
      · simp only [Option.some.injEq] at h
        subst h
        exact ⟨alookup_mem_vals hs, alookup_mem_vals hp, alookup_mem_vals ho⟩
      · exact absurd h (by simp)
    · exact absurd h (by simp)
  · exact absurd h (by simp)

theorem tryUnivCap_total {U : List String} (hlc : lowerClosed U)
    (hisU : "is" ∈ U) {n : Nat}
    (rec : St → Fact → List String → Option (DOut × St × List String))
    (hrec : RecTotal U n rec) (q : Fact) :
    ∀ (rs : List ERule) (st : St) (vis : List String),
      StInv U st → QInv U q → (∀ r' ∈ rs, r' ∈ st.rules) → measureK U vis < n →
      ∃ out st' vis', tryUnivCap rec q st vis rs = some (out, st', vis') ∧
        (out = none ∨ ∃ dr, out = some (DOut.ok dr)) ∧
        StInv U st' ∧ Progress st st' ∧ vis ⊆ vis' := by
  intro rs
  induction rs with
  | nil =>
    intro st vis hSt hQ _ _
    exact ⟨none, st, vis, by rw [tryUnivCap], Or.inl rfl, hSt, progress_refl st,
      fun x hx => hx⟩
  | cons r rest ih =>
    intro st vis hSt hQ hrs hm
    have hrest : ∀ r' ∈ rest, r' ∈ st.rules :=
      fun r' hr' => hrs r' (List.mem_cons_of_mem _ hr')
    cases hk : eruleKind r with
    | none =>
      obtain ⟨out, st', vis', heq, hsh, hst', hpr, hsub⟩ :=
        ih st vis hSt hQ hrest hm
      exact ⟨out, st', vis', by rw [tryUnivCap, hk]; exact heq, hsh, hst',
        hpr, hsub⟩
    | some cpb =>
      obtain ⟨catP, propP, isUniv⟩ := cpb
      by_cases hpred : q.predicate = (if isUniv then "is" else "can")
      · have hSt1 : StInv U (getPrime st q.object).2 :=
          getPrime_StInv hSt (hlc _ hQ.2.2)
        have hpr1 : Progress st (getPrime st q.object).2 :=
          getPrime_progress st q.object
        by_cases hobj : (getPrime st q.object).1 = propP
        · have hrin : r ∈ (getPrime st q.object).2.rules := by
            rw [hpr1.1.2.2]
            exact hrs r (List.mem_cons_self _ _)
          have hcat_some : (alookup (getPrime st q.object).2.p2c catP).isSome :=
            hSt1.2.2 r hrin (catP, propP, isUniv) hk
          cases hcat : primeToConcept (getPrime st q.object).2 catP with
          | none =>
            have hbad : (primeToConcept (getPrime st q.object).2 catP).isSome :=
              hcat_some
            rw [hcat] at hbad
            exact absurd hbad (by simp)
          | some catName =>
            have hmemQ : QInv U ⟨q.subject, "is", catName⟩ :=
              ⟨hQ.1, hisU, hSt1.2.1 _ (alookup_mem_vals hcat)⟩
            obtain ⟨sub, st2, vis2, hrc, hSt2, hpr2, hsub2⟩ :=
              hrec (getPrime st q.object).2 ⟨q.subject, "is", catName⟩ vis
                hSt1 hmemQ hm
            by_cases hres : sub.result = true
            · have hrin2 : r ∈ st2.rules := by
                rw [hpr2.1.2.2]
                exact hrin
              have hcat2_some : (alookup st2.p2c catP).isSome :=
                hSt2.2.2 r hrin2 (catP, propP, isUniv) hk
              cases hcat2 : primeToConcept st2 catP with
              | none =>
                have hbad : (primeToConcept st2 catP).isSome := hcat2_some
                rw [hcat2] at hbad
                exact absurd hbad (by simp)
              | some catName2 =>
                have hstep : ∃ dr, tryUnivCap rec q st vis (r :: rest) =
                    some (some (DOut.ok dr), st2, vis2) := by
                  rw [tryUnivCap, hk]
                  dsimp only
                  rw [if_pos hpred, if_pos hobj, hcat]
                  dsimp only
                  rw [hrc]
                  dsimp only
                  rw [if_pos hres, hcat2]
                  exact ⟨_, rfl⟩
                obtain ⟨dr, heq⟩ := hstep
                exact ⟨some (DOut.ok dr), st2, vis2, heq, Or.inr ⟨dr, rfl⟩,
                  hSt2, progress_trans hpr1 hpr2, hsub2⟩
            · obtain ⟨out, st', vis', heq, hsh, hst', hpr, hsub⟩ :=
                ih st2 vis2 hSt2 hQ
                  (fun r' h' => by
                    rw [hpr2.1.2.2, hpr1.1.2.2]
                    exact hrest r' h')
                  (lt_of_le_of_lt (measureK_mono hsub2) hm)
              refine ⟨out, st', vis', ?_, hsh, hst',
                progress_trans hpr1 (progress_trans hpr2 hpr),
                List.Subset.trans hsub2 hsub⟩
              rw [tryUnivCap, hk]
              dsimp only
              rw [if_pos hpred, if_pos hobj, hcat]
              dsimp only
              rw [hrc]
              dsimp only
              rw [if_neg hres]
              exact heq
        · obtain ⟨out, st', vis', heq, hsh, hst', hpr, hsub⟩ :=
            ih (getPrime st q.object).2 vis hSt1 hQ
              (fun r' h' => by rw [hpr1.1.2.2]; exact hrest r' h') hm
          refine ⟨out, st', vis', ?_, hsh, hst', progress_trans hpr1 hpr, hsub⟩
          rw [tryUnivCap, hk]
          dsimp only
          rw [if_pos hpred, if_neg hobj]
          exact heq
      · obtain ⟨out, st', vis', heq, hsh, hst', hpr, hsub⟩ :=
          ih st vis hSt hQ hrest hm
        refine ⟨out, st', vis', ?_, hsh, hst', hpr, hsub⟩
        rw [tryUnivCap, hk]
        dsimp only
        rw [if_neg hpred]
        exact heq

theorem tryConds_total {U : List String} {n : Nat}
    (rec : St → Fact → List String → Option (DOut × St × List String))
    (hrec : RecTotal U n rec) :
    ∀ (ces : List EncMap) (st : St) (vis acc : List String),
      StInv U st → measureK U vis < n →
      ∃ co st' vis', tryConds rec st vis acc ces = some (co, st', vis') ∧
        co ≠ COut.exn ∧ StInv U st' ∧ Progress st st' ∧ vis ⊆ vis' := by
  intro ces
  induction ces with
  | nil =>
    intro st vis acc hSt _
    exact ⟨COut.okL acc, st, vis, by rw [tryConds], by simp, hSt,
      progress_refl st, fun x hx => hx⟩
  | cons ce rest ih =>
    intro st vis acc hSt hm
    cases hdf : decodeFact st ce with
    | none =>
      exact ⟨COut.failed, st, vis, by rw [tryConds, hdf], by simp, hSt,
        progress_refl st, fun x hx => hx⟩
    | some cf =>
      have hQcf : QInv U cf := by
        obtain ⟨h1, h2, h3⟩ := decodeFact_comps hdf
        exact ⟨hSt.2.1 _ h1, hSt.2.1 _ h2, hSt.2.1 _ h3⟩
      obtain ⟨sub, st2, vis2, hrc, hSt2, hpr2, hsub2⟩ :=
        hrec st cf vis hSt hQcf hm
      by_cases hres : sub.result = true
      · obtain ⟨co, st', vis', heq, hco, hst', hpr, hsub⟩ :=
          ih st2 vis2 (acc ++ [sub.explanation]) hSt2
            (lt_of_le_of_lt (measureK_mono hsub2) hm)
        refine ⟨co, st', vis', ?_, hco, hst', progress_trans hpr2 hpr,
          List.Subset.trans hsub2 hsub⟩
        rw [tryConds, hdf]
        dsimp only
        rw [hrc]
        dsimp only
        rw [if_pos hres]
        exact heq
      · refine ⟨COut.failed, st2, vis2, ?_, by simp, hSt2, hpr2, hsub2⟩
        rw [tryConds, hdf]
        dsimp only
        rw [hrc]
        dsimp only
        rw [if_neg hres]

theorem tryStd_total {U : List String} {n : Nat}
    (rec : St → Fact → List String → Option (DOut × St × List String))
    (hrec : RecTotal U n rec) (q : Fact) (qEnc : EncMap) :
    ∀ (rs : List ERule) (st : St) (vis : List String),
      StInv U st → measureK U vis < n →
      ∃ out st' vis', tryStd rec q qEnc st vis rs = some (out, st', vis') ∧
        (out = none ∨ ∃ dr, out = some (DOut.ok dr)) ∧
        StInv U st' ∧ Progress st st' ∧ vis ⊆ vis' := by
  intro rs
  induction rs with
  | nil =>
    intro st vis hSt _
    exact ⟨none, st, vis, by rw [tryStd], Or.inl rfl, hSt, progress_refl st,
      fun x hx => hx⟩
  | cons r rest ih =>
    intro st vis hSt hm
    cases r with
    | universalR catP propP pp ce cle =>
      obtain ⟨out, st', vis', heq, hsh, hst', hpr, hsub⟩ := ih st vis hSt hm
      exact ⟨out, st', vis', heq, hsh, hst', hpr, hsub⟩
    | capabilityR catP propP pp ce cle =>
      obtain ⟨out, st', vis', heq, hsh, hst', hpr, hsub⟩ := ih st vis hSt hm
      exact ⟨out, st', vis', heq, hsh, hst', hpr, hsub⟩
    | standardR condEncs conclEnc =>
      by_cases hce : dictBeq conclEnc qEnc = true
      · obtain ⟨co, st2, vis2, htc, hco, hSt2, hpr2, hsub2⟩ :=
          tryConds_total rec hrec condEncs st vis [] hSt hm
        cases co with
        | exn => exact absurd rfl hco
        | failed =>
          obtain ⟨out, st', vis', heq, hsh, hst', hpr, hsub⟩ :=
            ih st2 vis2 hSt2 (lt_of_le_of_lt (measureK_mono hsub2) hm)
          refine ⟨out, st', vis', ?_, hsh, hst', progress_trans hpr2 hpr,
            List.Subset.trans hsub2 hsub⟩
          rw [tryStd, if_pos hce, htc]
          exact heq
        | okL expls =>
          refine ⟨some (DOut.ok ⟨true,
            String.intercalate ", " expls ++ ", which implies " ++ factKey q,
            none⟩), st2, vis2, ?_, Or.inr ⟨_, rfl⟩, hSt2, hpr2, hsub2⟩
          rw [tryStd, if_pos hce, htc]
      · obtain ⟨out, st', vis', heq, hsh, hst', hpr, hsub⟩ := ih st vis hSt hm
        refine ⟨out, st', vis', ?_, hsh, hst', hpr, hsub⟩
        rw [tryStd, if_neg hce]
        exact heq

theorem tryTrans_total {U : List String} {n : Nat}
    (rec : St → Fact → List String → Option (DOut × St × List String))
    (hrec : RecTotal U n rec) (q : Fact) (hQ : QInv U q) :
    ∀ (prs : List (EncMap × Fact)) (st : St) (vis : List String),
      StInv U st → (∀ pr ∈ prs, pr.2.object ∈ U) → measureK U vis < n →
      ∃ out st' vis', tryTrans rec q st vis prs = some (out, st', vis') ∧
        (out = none ∨ ∃ dr, out = some (DOut.ok dr)) ∧
        StInv U st' ∧ Progress st st' ∧ vis ⊆ vis' := by
  intro prs
  induction prs with
  | nil =>
    intro st vis hSt _ _
    exact ⟨none, st, vis, by rw [tryTrans], Or.inl rfl, hSt, progress_refl st,
      fun x hx => hx⟩
  | cons pr rest ih =>
    intro st vis hSt hobj hm
    have hrest : ∀ pr' ∈ rest, pr'.2.object ∈ U :=
      fun pr' hpr' => hobj pr' (List.mem_cons_of_mem _ hpr')
    rcases pr with ⟨fe, f⟩
    by_cases hmatch : f.subject = q.subject ∧ f.predicate = q.predicate
    · have hQi : QInv U ⟨f.object, q.predicate, q.object⟩ :=
        ⟨hobj (fe, f) (List.mem_cons_self _ _), hQ.2.1, hQ.2.2⟩
      obtain ⟨sub, st2, vis2, hrc, hSt2, hpr2, hsub2⟩ :=
        hrec st ⟨f.object, q.predicate, q.object⟩ vis hSt hQi hm
      by_cases hres : sub.result = true
      · refine ⟨some (DOut.ok ⟨true,
          q.subject ++ " " ++ q.predicate ++ " " ++ f.object ++ ", and " ++
            sub.explanation, none⟩), st2, vis2, ?_, Or.inr ⟨_, rfl⟩, hSt2,
          hpr2, hsub2⟩
        rw [tryTrans, if_pos hmatch]
        dsimp only
        rw [hrc]
        dsimp only
        rw [if_pos hres]
      · obtain ⟨out, st', vis', heq, hsh, hst', hpr, hsub⟩ :=
          ih st2 vis2 hSt2 hrest (lt_of_le_of_lt (measureK_mono hsub2) hm)
        refine ⟨out, st', vis', ?_, hsh, hst', progress_trans hpr2 hpr,
          List.Subset.trans hsub2 hsub⟩
        rw [tryTrans, if_pos hmatch]
        dsimp only
        rw [hrc]
        dsimp only
        rw [if_neg hres]
        exact heq
    · obtain ⟨out, st', vis', heq, hsh, hst', hpr, hsub⟩ :=
        ih st vis hSt hrest hm
      refine ⟨out, st', vis', ?_, hsh, hst', hpr, hsub⟩
      rw [tryTrans, if_neg hmatch]
      exact heq

theorem deducePost_total {U : List String} (hlc : lowerClosed U)
    (hisU : "is" ∈ U) {n : Nat}
    (rec : St → Fact → List String → Option (DOut × St × List String))
    (hrec : RecTotal U n rec) (q : Fact) (st1 : St) (vis1 : List String)
    (hSt1 : StInv U st1) (hQ : QInv U q) (hm : measureK U vis1 < n) :
    ∃ r st' vis', deducePost rec q st1 vis1 = some (DOut.ok r, st', vis') ∧
      StInv U st' ∧ Progress st1 st' ∧ vis1 ⊆ vis' := by
  have hSt2 : StInv U (encodeFact st1 q).2 := encodeFact_StInv hlc hSt1 hQ
  have hpr2 : Progress st1 (encodeFact st1 q).2 := encodeFact_progress st1 q
  cases hfd : findDirect (encodeFact st1 q).1
      ((encodeFact st1 q).2.factEncodings.zip (encodeFact st1 q).2.facts) with
  | some f =>
    refine ⟨⟨true, "Direct fact in knowledge base: " ++ factKey f, none⟩,
      (encodeFact st1 q).2, vis1, ?_, hSt2, hpr2, fun x hx => hx⟩
    simp only [deducePost]
    rw [hfd]
  | none =>
    obtain ⟨out3, st3, vis3, huc, hsh3, hSt3, hpr3, hsub3⟩ :=
      tryUnivCap_total hlc hisU rec hrec q (encodeFact st1 q).2.rules
        (encodeFact st1 q).2 vis1 hSt2 hQ (fun r' h' => h') hm
    rcases hsh3 with rfl | ⟨dr, rfl⟩
    · obtain ⟨out4, st4, vis4, hsd, hsh4, hSt4, hpr4, hsub4⟩ :=
        tryStd_total rec hrec q (encodeFact st1 q).1 st3.rules st3 vis3 hSt3
          (lt_of_le_of_lt (measureK_mono hsub3) hm)
      rcases hsh4 with rfl | ⟨dr4, rfl⟩
      · by_cases hpp : q.predicate = "is" ∨ q.predicate = "part of"
        · obtain ⟨out5, st5, vis5, htt, hsh5, hSt5, hpr5, hsub5⟩ :=
            tryTrans_total rec hrec q hQ (st4.factEncodings.zip st4.facts)
              st4 vis4 hSt4
              (fun pr hpr => by
                rcases pr with ⟨fe, f⟩
                exact hSt4.1 f (List.mem_zip hpr).2)
              (lt_of_le_of_lt (measureK_mono
                (List.Subset.trans hsub3 hsub4)) hm)
          rcases hsh5 with rfl | ⟨dr5, rfl⟩
          · refine ⟨⟨false, "Could not deduce: " ++ factKey q, none⟩, st5,
              vis5, ?_, hSt5,
              progress_trans hpr2 (progress_trans hpr3
                (progress_trans hpr4 hpr5)),
              List.Subset.trans hsub3 (List.Subset.trans hsub4 hsub5)⟩
            simp only [deducePost]
            rw [hfd, huc]
            dsimp only
            rw [hsd]
            dsimp only
            rw [if_pos hpp, htt]
          · refine ⟨dr5, st5, vis5, ?_, hSt5,
              progress_trans hpr2 (progress_trans hpr3
                (progress_trans hpr4 hpr5)),
              List.Subset.trans hsub3 (List.Subset.trans hsub4 hsub5)⟩
            simp only [deducePost]
            rw [hfd, huc]
            dsimp only
            rw [hsd]
            dsimp only
            rw [if_pos hpp, htt]
        · refine ⟨⟨false, "Could not deduce: " ++ factKey q, none⟩, st4, vis4,
            ?_, hSt4, progress_trans hpr2 (progress_trans hpr3 hpr4),
            List.Subset.trans hsub3 hsub4⟩
          simp only [deducePost]
          rw [hfd, huc]
          dsimp only
          rw [hsd]
          dsimp only
          rw [if_neg hpp]
      · refine ⟨dr4, st4, vis4, ?_, hSt4,
          progress_trans hpr2 (progress_trans hpr3 hpr4),
          List.Subset.trans hsub3 hsub4⟩
        simp only [deducePost]
        rw [hfd, huc]
        dsimp only
        rw [hsd]
    · refine ⟨dr, st3, vis3, ?_, hSt3, progress_trans hpr2 hpr3, hsub3⟩
      simp only [deducePost]
      rw [hfd, huc]

theorem deduceAux_total {U : List String} (hlc : lowerClosed U)
    (hisU : "is" ∈ U) :
    ∀ fuel : Nat, RecTotal U fuel (deduceAux fuel) := by
  intro fuel
  induction fuel with
  | zero =>
    intro st q vis _ _ hm
    exact absurd hm (Nat.not_lt_zero _)
  | succ fuel ih =>
    intro st q vis hSt hQ hm
    by_cases hv : factKey q ∈ vis
    · refine ⟨⟨false, "Circular reasoning detected: " ++ factKey q, none⟩,
        st, vis, ?_, hSt, progress_refl st, fun x hx => hx⟩
      rw [deduceAux]
      dsimp only
      rw [if_pos hv]
    · have hkey : factKey q ∈ keysOf U := mkKey_mem_keysOf hQ
      have hmdec : measureK U (factKey q :: vis) < fuel := by
        have h1 := measureK_strict hkey hv
        omega
      by_cases hid : q.predicate = "is" ∧ q.subject = q.object
      · refine ⟨⟨true, q.subject ++ " is itself by definition", none⟩, st,
          factKey q :: vis, ?_, hSt, progress_refl st,
          fun x hx => List.mem_cons_of_mem _ hx⟩
        rw [deduceAux]
        dsimp only
        rw [if_neg hv, if_pos hid]
      · by_cases his : q.predicate = "is"
        · have hSt1 : StInv U
              (universalChain (chainFuel st) st q.subject q.object []).2.1 :=
            universalChain_StInv hlc _ st q.subject q.object [] hSt hQ.1
          have hpr1 : Progress st
              (universalChain (chainFuel st) st q.subject q.object []).2.1 :=
            universalChain_progress _ _ _ _ _
          cases hch : (universalChain (chainFuel st) st q.subject
              q.object []).1 with
          | some chain =>
            refine ⟨⟨true, hopsExpl chain,
              some (String.intercalate " ⊆ " chain)⟩,
              (universalChain (chainFuel st) st q.subject q.object []).2.1,
              factKey q :: vis, ?_, hSt1, hpr1,
              fun x hx => List.mem_cons_of_mem _ hx⟩
            rw [deduceAux]
            dsimp only
            rw [if_neg hv, if_neg hid, if_pos his]
            dsimp only
            rw [hch]
          | none =>
            obtain ⟨r, st', vis', hpost, hSt', hpr', hsub'⟩ :=
              deducePost_total hlc hisU (deduceAux fuel) ih q
                (universalChain (chainFuel st) st q.subject q.object []).2.1
                (factKey q :: vis) hSt1 hQ hmdec
            refine ⟨r, st', vis', ?_, hSt', progress_trans hpr1 hpr',
              fun x hx => hsub' (List.mem_cons_of_mem _ hx)⟩
            rw [deduceAux]
            dsimp only
            rw [if_neg hv, if_neg hid, if_pos his]
            dsimp only
            rw [hch]
            exact hpost
        · obtain ⟨r, st', vis', hpost, hSt', hpr', hsub'⟩ :=
            deducePost_total hlc hisU (deduceAux fuel) ih q st
              (factKey q :: vis) hSt hQ hmdec
          refine ⟨r, st', vis', ?_, hSt', hpr',
            fun x hx => hsub' (List.mem_cons_of_mem _ hx)⟩
          rw [deduceAux]
          dsimp only
          rw [if_neg hv, if_neg hid, if_neg his]
          dsimp only
          exact hpost

/-! ### Claim C2 -/

/-- C2: for every well-formed knowledge store (every universal/capability
rule's category prime registered, as `add_rule` guarantees) and every
query fact, `deduce` terminates and returns a definite result record —
never fuel exhaustion (the Python recursion cannot diverge: the shared
visited set strictly grows inside a finite key universe) and never an
uncaught exception — even when the universal rules form a cycle. -/
theorem c2_deduce_total (st : St) (q : Fact) (hwf : WFst st) :
    ∃ r st' vis', deduce st q = some (DOut.ok r, st', vis') := by
  have hlc : lowerClosed (baseUnion st q) := by
    intro s hs
    unfold baseUnion at hs ⊢
    rcases List.mem_append.mp hs with h | h
    · exact List.mem_append.mpr (Or.inr (List.mem_map.mpr ⟨s, h, rfl⟩))
    · obtain ⟨x, hx, rfl⟩ := List.mem_map.mp h
      rw [strLower_idem]
      exact List.mem_append.mpr (Or.inr (List.mem_map.mpr ⟨x, hx, rfl⟩))
  have hisU : "is" ∈ baseUnion st q := by
    unfold baseUnion
    exact List.mem_append.mpr (Or.inl (List.mem_cons_self _ _))
  have hSt : StInv (baseUnion st q) st := by
    refine ⟨?_, ?_, hwf⟩
    · intro f hf
      unfold baseUnion
      refine List.mem_append.mpr (Or.inl ?_)
      simp only [List.mem_cons]
      exact Or.inr (Or.inr (Or.inr (Or.inr
        (List.mem_append.mpr (Or.inl (List.mem_map.mpr ⟨f, hf, rfl⟩))))))
    · intro v hv
      unfold baseUnion
      refine List.mem_append.mpr (Or.inl ?_)
      simp only [List.mem_cons]
      exact Or.inr (Or.inr (Or.inr (Or.inr (List.mem_append.mpr (Or.inr hv)))))
  have hQ : QInv (baseUnion st q) q := by
    refine ⟨?_, ?_, ?_⟩ <;>
      · unfold baseUnion
        refine List.mem_append.mpr (Or.inl ?_)
        simp
  have hm : measureK (baseUnion st q) [] < deduceFuel st q := by
    unfold deduceFuel
    exact measureK_nil_lt _
  obtain ⟨r, st', vis', heq, _, _, _⟩ :=
    deduceAux_total hlc hisU (deduceFuel st q) st q [] hSt hQ hm
  exact ⟨r, st', vis', heq⟩

/-- C2 witness: the spec's cycle scenario (universal rules A→B and B→A)
is well-formed and `deduce(A is B)` terminates with a definite result. -/
theorem c2_deduce_total_witness :
    WFst cycSt ∧
      ∃ r st' vis', deduce cycSt ⟨"A", "is", "B"⟩ =
        some (DOut.ok r, st', vis') := by
  have hrules : cycSt.rules =
      [ERule.universalR 7 11 5 [(3, 1), (5, 1), (7, 1)]
        [(3, 1), (5, 1), (11, 1)],
       ERule.universalR 11 7 5 [(3, 1), (5, 1), (11, 1)]
        [(3, 1), (5, 1), (7, 1)]] := by decide
  have hwf : WFst cycSt := by
    intro r hr cp hcp
    rw [hrules] at hr
    rcases List.mem_cons.mp hr with rfl | hr
    · simp only [eruleKind, Option.some.injEq] at hcp
      subst hcp
      decide
    · rcases List.mem_cons.mp hr with rfl | hr
      · simp only [eruleKind, Option.some.injEq] at hcp
        subst hcp
        decide
      · exact absurd hr (List.not_mem_nil _)
  exact ⟨hwf, c2_deduce_total cycSt ⟨"A", "is", "B"⟩ hwf⟩
